import Mathlib

/-!
Shallow embedding of the chunked, resumable translation pipeline of the
YouTube dubbing application (src/dubbing_app/core/translator.py and
src/dubbing_app/core/transcript.py).

Python strings are modelled as lists of characters (`PyStr`), which matches
Python's view of a string as a sequence of code points.  Timecodes are parsed
to exact rationals (`ℚ`); Python's binary floating point agrees with ℚ on all
the comparisons performed here for the inputs considered.  Filesystem chunk
artifacts are modelled as a keyed store `ℕ → Option PyStr`, and the
chat-completion network call as an oracle function.
-/

namespace Dubbing

/-- Python `str` modelled as a list of characters. -/
abbrev PyStr := List Char

/-- Characters stripped by Python's `str.strip()` (ASCII whitespace). -/
def pyWs (c : Char) : Bool :=
  c = ' ' || c = '\t' || c = '\n' || c = '\r' || c = '\x0b' || c = '\x0c'

/-- Python `str.lstrip()`. -/
def lstrip (l : PyStr) : PyStr := l.dropWhile pyWs

/-- Python `str.rstrip()`. -/
def rstrip (l : PyStr) : PyStr := (l.reverse.dropWhile pyWs).reverse

/-- Python `str.strip()`. -/
def strip (l : PyStr) : PyStr := rstrip (lstrip l)

/-- Python's substring test `pat in hay` (contiguous occurrence). -/
def pyIn : PyStr → PyStr → Bool
  | pat, [] => pat.isEmpty
  | pat, c :: cs => pat.isPrefixOf (c :: cs) || pyIn pat cs

/-- Python `t.replace(pat, "", 1)`: delete the first occurrence of `pat`. -/
def replaceFirst : PyStr → PyStr → PyStr
  | [], _ => []
  | c :: cs, pat =>
    if pat.isPrefixOf (c :: cs) then (c :: cs).drop pat.length
    else c :: replaceFirst cs pat

/-- Python `text.split('\n')`. -/
def splitLines : PyStr → List PyStr
  | [] => [[]]
  | c :: rest =>
    if c = '\n' then [] :: splitLines rest
    else
      match splitLines rest with
      | l :: ls => (c :: l) :: ls
      | [] => [[c]]

/-- Python `'\n'.join(lines)`. -/
def joinLines (lines : List PyStr) : PyStr := List.intercalate ['\n'] lines

/-- `_is_sentence_end` (translator.py:348-353): after `rstrip`, does the text
end in a sentence-terminal character? -/
def is_sentence_end (t : PyStr) : Bool :=
  match (rstrip t).getLast? with
  | some c => c = '.' || c = '!' || c = '?' || c = '。' || c = '！' || c = '？' || c = '…'
  | none => false

/-- Value of an ASCII digit character. -/
def dval (c : Char) : ℕ := c.toNat - 48

/-- Exact rational subtraction, written through `mkRat` so that it is
evaluable by kernel reduction; `ratSub_eq` identifies it with `Sub.sub`. -/
def ratSub (a b : ℚ) : ℚ := mkRat (a.num * b.den - b.num * a.den) (a.den * b.den)

/-- `_time_to_seconds` (translator.py:339-345): parse a `HH:MM:SS.mmm` prefix
(the source uses `re.match`, which anchors at the start only) to exact
seconds `h*3600 + m*60 + s + ms/1000`, written as a single fraction over
1000; any non-matching string maps to `0`. -/
def time_to_seconds (s : PyStr) : ℚ :=
  match s with
  | h1 :: h2 :: c1 :: m1 :: m2 :: c2 :: s1 :: s2 :: dot :: x1 :: x2 :: x3 :: _ =>
    if h1.isDigit && h2.isDigit && c1 = ':' && m1.isDigit && m2.isDigit && c2 = ':' &&
       s1.isDigit && s2.isDigit && dot = '.' && x1.isDigit && x2.isDigit && x3.isDigit then
      mkRat (((10 * dval h1 + dval h2) * 3600 + (10 * dval m1 + dval m2) * 60 +
        (10 * dval s1 + dval s2)) * 1000 + (100 * dval x1 + 10 * dval x2 + dval x3)) 1000
    else 0
  | _ => 0

/-- A subtitle segment `{"start": ..., "end": ..., "text": ...}`.  The dict
key `end` is called `endT` here because `end` is a Lean keyword. -/
structure Segment where
  start : PyStr
  endT : PyStr
  text : PyStr
deriving DecidableEq, Repr

/-- First pass of `preprocess_segments` (translator.py:121-151): sequential
duplicate removal with a single lookback `prev` holding the previous
segment's raw stripped text. -/
def dedupSegs : PyStr → List Segment → List Segment
  | _, [] => []
  | prev, seg :: rest =>
    let t0 := strip seg.text
    if t0 = [] then dedupSegs prev rest
    else if prev ≠ [] ∧ prev.isPrefixOf t0 then
      if t0 = prev then dedupSegs prev rest
      else
        let t1 := strip (t0.drop prev.length)
        if t1 = [] then dedupSegs prev rest
        else if prev ≠ [] ∧ pyIn prev t1 then
          let t2 := strip (replaceFirst t1 prev)
          if t2 = [] then dedupSegs prev rest
          else { seg with text := t2 } :: dedupSegs t0 rest
        else { seg with text := t1 } :: dedupSegs t0 rest
    else if prev ≠ [] ∧ pyIn prev t0 then
      let t2 := strip (replaceFirst t0 prev)
      if t2 = [] then dedupSegs prev rest
      else { seg with text := t2 } :: dedupSegs t0 rest
    else { seg with text := t0 } :: dedupSegs t0 rest

/-- Buffer extension of the merge pass (translator.py:160-169): an empty
buffer is replaced by the segment, otherwise the text is appended with a
space and the end time extended. -/
def mergeBuf (buf seg : Segment) : Segment :=
  if buf.text = [] then { start := seg.start, endT := seg.endT, text := seg.text }
  else { start := buf.start, endT := seg.endT, text := buf.text ++ ' ' :: seg.text }

/-- Second pass of `preprocess_segments` (translator.py:153-178): accumulate
segments into a buffer, flushing when the buffered text ends a sentence or
exceeds 200 characters. -/
def mergeSegs : Segment → List Segment → List Segment
  | buf, [] => if buf.text = [] then [] else [buf]
  | buf, seg :: rest =>
    if is_sentence_end (mergeBuf buf seg).text ∨ (mergeBuf buf seg).text.length > 200 then
      mergeBuf buf seg :: mergeSegs ⟨[], [], []⟩ rest
    else mergeSegs (mergeBuf buf seg) rest

/-- `preprocess_segments` (translator.py:104-181): duplicate removal followed
by sentence merging. -/
def preprocess_segments (segments : List Segment) : List Segment :=
  if segments = [] then [] else mergeSegs ⟨[], [], []⟩ (dedupSegs [] segments)

/-- One iteration of the loop of `remove_duplicate_lines`
(translator.py:198-222), acting on the state `(result, prev)`. -/
def rdlStep (acc : List PyStr × PyStr) (line : PyStr) : List PyStr × PyStr :=
  let stripped := strip line
  if stripped = [] then (acc.1 ++ [line], [])
  else if stripped = acc.2 then acc
  else if acc.2 ≠ [] ∧ pyIn acc.2 stripped then
    (if acc.1 = [] then acc.1 else acc.1.dropLast ++ [line], stripped)
  else if acc.2 ≠ [] ∧ pyIn stripped acc.2 then acc
  else (acc.1 ++ [line], stripped)

/-- `remove_duplicate_lines` (translator.py:184-224). -/
def remove_duplicate_lines (t : PyStr) : PyStr :=
  joinLines ((splitLines t).foldl rdlStep ([], [])).1

/-! ### `remove_fillers` (translator.py:227-255)

The two `re.sub(pattern, '', text, flags=IGNORECASE)` calls use patterns of
the shape `\b(alt1|alt2|...)\b` whose alternatives share no prefixes, so the
regex semantics reduce to a left-to-right scan trying each alternative at
each position, guarded by word boundaries.  `\b` holds where exactly one of
the two adjacent positions carries a word character. -/

/-- Python regex `\w` (ASCII fragment, which covers all texts involved). -/
def wordChar (c : Char) : Bool := c.isAlphanum || c = '_'

/-- Word-character status of the head of a string (`false` at the ends). -/
def headW : PyStr → Bool
  | [] => false
  | c :: _ => wordChar c

/-- Case-insensitive match of a pattern against a prefix of the input;
returns the last consumed input character and the rest. -/
def matchCI : PyStr → PyStr → Char → Option (Char × PyStr)
  | [], s, last => some (last, s)
  | _ :: _, [], _ => none
  | p :: ps, c :: cs, _ => if p.toLower = c.toLower then matchCI ps cs c else none

/-- Try one alternative at the current position with `\b` checks on both
sides; on success return the word-status of the last matched character and
the remaining input. -/
def tryAlt (prevW : Bool) (s : PyStr) (alt : PyStr) : Option (Bool × PyStr) :=
  match s with
  | [] => none
  | c :: _ =>
    if prevW = wordChar c then none
    else
      match matchCI alt s ' ' with
      | none => none
      | some (last, rest) =>
        if wordChar last = headW rest then none
        else some (wordChar last, rest)

/-- One `re.sub(r'\b(...)\b', '', s, flags=IGNORECASE)` scan.  The fuel is
the length of the input plus one; each step consumes at least one character,
so the fuel never runs out when initialised that way. -/
def runSubF (alts : List PyStr) : ℕ → Bool → PyStr → PyStr
  | 0, _, s => s
  | _ + 1, _, [] => []
  | fuel + 1, prevW, c :: cs =>
    match (c :: cs : PyStr) with
    | s =>
      match alts.findSome? (tryAlt prevW s) with
      | some (lastW, rest) => runSubF alts fuel lastW rest
      | none => c :: runSubF alts fuel (wordChar c) cs

/-- Delete all boundary-guarded occurrences of the given alternatives. -/
def runSub (alts : List PyStr) (s : PyStr) : PyStr :=
  runSubF alts (s.length + 1) false s

/-- Alternatives of the first filler pattern (translator.py:241). -/
def fillers1 : List PyStr :=
  ["um".data, "uh".data, "er".data, "ah".data, "like".data, "you know".data,
   "I mean".data, "so".data, "well".data, "basically".data, "actually".data,
   "literally".data]

/-- Alternatives of the second filler pattern (translator.py:242). -/
def fillers2 : List PyStr :=
  ["kind of".data, "sort of".data, "right?".data, "okay?".data, "yeah?".data]

/-- `re.sub(r'\s+', ' ', s)`: collapse every whitespace run to one space. -/
def collapseWs : Bool → PyStr → PyStr
  | _, [] => []
  | inWs, c :: cs =>
    if pyWs c then
      if inWs then collapseWs true cs else ' ' :: collapseWs true cs
    else c :: collapseWs false cs

/-- Case-insensitive prefix test. -/
def ciPrefix : PyStr → PyStr → Bool
  | [], _ => true
  | _ :: _, [] => false
  | p :: ps, c :: cs => (p.toLower = c.toLower) && ciPrefix ps cs

/-- One `re.sub(r'\b(\w+)\s+\1\b', r'\1', s, flags=IGNORECASE)` scan
(adjacent repeated-word removal), with fuel as in `runSubF`. -/
def dropRepsF : ℕ → Bool → PyStr → PyStr
  | 0, _, s => s
  | _ + 1, _, [] => []
  | fuel + 1, prevW, c :: cs =>
    if !prevW && wordChar c then
      let w := (c :: cs : PyStr).takeWhile wordChar
      let r1 := (c :: cs : PyStr).drop w.length
      let sp := r1.takeWhile pyWs
      let r2 := r1.drop sp.length
      if sp ≠ [] ∧ ciPrefix w r2 ∧ headW (r2.drop w.length) = false then
        w ++ dropRepsF fuel true (r2.drop w.length)
      else c :: dropRepsF fuel (wordChar c) cs
    else c :: dropRepsF fuel (wordChar c) cs

/-- `remove_fillers` (translator.py:227-255): strip filler words, collapse
whitespace, strip, and drop adjacent repeated words. -/
def remove_fillers (text : PyStr) : PyStr :=
  let r1 := runSub fillers1 text
  let r2 := runSub fillers2 r1
  let r3 := strip (collapseWs false r2)
  dropRepsF (r3.length + 1) false r3

/-! ### `split_segments_by_time` (translator.py:356-418) -/

/-- Loop state of `split_segments_by_time`: finished chunks, the running
chunk, its start time `chunk_start_time` and character count
`current_chars`. -/
structure SplitSt where
  chunks : List (List Segment)
  cur : List Segment
  startT : ℚ
  chars : ℕ
deriving Repr

/-- Total text length of a chunk. -/
def charSum (l : List Segment) : ℕ := (l.map fun s => s.text.length).sum

/-- Text of the last segment of the running chunk (`current_chunk[-1]`),
only consulted when the chunk is non-empty. -/
def lastText (l : List Segment) : PyStr :=
  match l.getLast? with
  | some s => s.text
  | none => []

/-- The new-chunk condition of `split_segments_by_time`
(translator.py:391-399): `time_exceeded or hard_exceeded or soft_exceeded`. -/
def splitCond (chunkDuration : ℚ) (maxChars hardLimit : ℕ)
    (st : SplitSt) (seg : Segment) : Bool :=
  (decide (st.cur ≠ []) && decide (ratSub (time_to_seconds seg.start) st.startT ≥ chunkDuration)) ||
  (decide (st.cur ≠ []) && decide (st.chars + seg.text.length > hardLimit)) ||
  (decide (st.cur ≠ []) && (decide (st.chars ≥ maxChars) && is_sentence_end (lastText st.cur)))

/-- One iteration of the loop of `split_segments_by_time`
(translator.py:382-412). -/
def splitStep (chunkDuration : ℚ) (maxChars hardLimit : ℕ)
    (st : SplitSt) (seg : Segment) : SplitSt :=
  let segStart := time_to_seconds seg.start
  let st1 : SplitSt :=
    if splitCond chunkDuration maxChars hardLimit st seg then
      ⟨st.chunks ++ [st.cur], [], segStart, 0⟩
    else st
  let cur2 := st1.cur ++ [seg]
  let start3 := if cur2.length = 1 ∧ st1.startT = 0 then segStart else st1.startT
  ⟨st1.chunks, cur2, start3, st1.chars + seg.text.length⟩

/-- `split_segments_by_time` (translator.py:356-418). -/
def split_segments_by_time (segments : List Segment) (chunkDuration : ℚ)
    (maxChars hardLimit : ℕ) : List (List Segment) :=
  if segments = [] then []
  else
    let fin := segments.foldl (splitStep chunkDuration maxChars hardLimit) ⟨[], [], 0, 0⟩
    if fin.cur ≠ [] then fin.chunks ++ [fin.cur] else fin.chunks

/-! ### `translate_text` (translator.py:421-541)

The network call is an oracle `ℕ → Except PyStr PyStr` giving, per attempt
number, either the response content or the text of the raised exception.
The model returns the result, the number of attempts actually made, and
whether the Ollama pre-flight check ran. -/

/-- Result dict of the translation functions: `{"success": True,
"translated": ...}` or `{"success": False, "error": ...}`. -/
inductive TResult where
  | ok (translated : PyStr)
  | fail (error : PyStr)
deriving DecidableEq, Repr

/-- Whether a result is a success. -/
def TResult.isOk : TResult → Bool
  | .ok _ => true
  | .fail _ => false

/-- Retry condition (translator.py:532): the lowered error text contains
"timeout" or "connection". -/
def retryable (e : PyStr) : Bool :=
  pyIn "timeout".data (e.map Char.toLower) || pyIn "connection".data (e.map Char.toLower)

/-- The terminal failure message of `translate_text` (translator.py:538-541). -/
def failMsg (maxRetries : ℕ) (lastError : PyStr) : PyStr :=
  ("번역 실패 (재시도 " ++ toString maxRetries ++ "회 후): ").data ++ lastError

/-- The retry loop of `translate_text` (translator.py:479-541), recursing on
the remaining iterations of `range(max_retries + 1)`; returns the result and
the number of attempts made. -/
def translateLoop (oracle : ℕ → Except PyStr PyStr) (maxRetries : ℕ) :
    ℕ → ℕ → PyStr → TResult × ℕ
  | _, 0, lastError => (.fail (failMsg maxRetries lastError), 0)
  | attempt, r + 1, _ =>
    match oracle attempt with
    | .ok resp => (.ok (strip resp), 1)
    | .error e =>
      if retryable e then
        let k := translateLoop oracle maxRetries (attempt + 1) r e
        (k.1, k.2 + 1)
      else (.fail (failMsg maxRetries e), 1)

/-- `translate_text` (translator.py:421-541).  `ollamaAvailable`/`ollamaErr`
stand for the outcome of `check_ollama_status`; the third component records
whether that pre-flight check was performed. -/
def translate_text (text apiKey baseUrl : PyStr) (maxRetries : ℕ)
    (ollamaAvailable : Bool) (ollamaErr : PyStr)
    (oracle : ℕ → Except PyStr PyStr) : TResult × ℕ × Bool :=
  if strip text = [] then (.ok [], 0, false)
  else if pyIn "localhost:11434".data baseUrl then
    if ollamaAvailable = false then (.fail ollamaErr, 0, true)
    else
      let r := translateLoop oracle maxRetries 0 (maxRetries + 1) "None".data
      (r.1, r.2, true)
  else if apiKey = [] then (.fail "API 키가 설정되지 않았습니다.".data, 0, false)
  else
    let r := translateLoop oracle maxRetries 0 (maxRetries + 1) "None".data
    (r.1, r.2, false)

/-! ### `translate_by_segments` (translator.py:631-810)

The chunk store `chunks_dir` is a keyed store `ℕ → Option PyStr`; the
translation client (`translate_text` with fixed configuration) is a
deterministic function `PyStr → PyStr → TResult` of the chunk text and the
previous-chunk context, as claim C1 stipulates.  The `ThreadPoolExecutor` is
modelled as sequential execution of the submitted chunks in submission
order; on the success path the assembled output is independent of completion
order because results are keyed by chunk index. -/

/-- An entry of `chunk_data` (translator.py:720-725). -/
structure ChunkInfo where
  index : ℕ
  text : PyStr
  ctx : PyStr
deriving DecidableEq, Repr

/-- State of the orchestrator's execution loop: the result slots, the chunk
store, the log of chunk indices whose translation was invoked, and the first
error (`error_result`). -/
structure OrchSt where
  results : ℕ → Option PyStr
  store : ℕ → Option PyStr
  calls : List ℕ
  err : Option PyStr

/-- Execute the scheduled chunks (`translate_and_save` under `as_completed`,
translator.py:748-797): each success writes its artifact and fills its
result slot; the first failure cancels all remaining work. -/
def execChunks (client : PyStr → PyStr → TResult) : List ChunkInfo → OrchSt → OrchSt
  | [], st => st
  | cd :: rest, st =>
    match client cd.text cd.ctx with
    | .ok t =>
      execChunks client rest
        { st with
          results := Function.update st.results cd.index (some t)
          store := Function.update st.store cd.index (some t)
          calls := st.calls ++ [cd.index] }
    | .fail e => { st with calls := st.calls ++ [cd.index], err := some e }

/-- `prev_chunk_tail` (translator.py:716-717, 728-729): the last two lines
of a chunk's source text. -/
def chunkTail (t : PyStr) : PyStr :=
  let lines := splitLines t
  if 2 ≤ lines.length then joinLines (lines.drop (lines.length - 2)) else t

/-- Context list: chunk 0 gets no context; chunk `i+1` gets the tail of
chunk `i`'s source text (independent of any translation result). -/
def ctxList (texts : List PyStr) : List PyStr :=
  (([] : PyStr) :: texts.map chunkTail).take texts.length

/-- Preprocessing performed by `translate_by_segments` before chunking
(translator.py:672-677): segment cleanup then filler removal per segment. -/
def procSegs (segments : List Segment) : List Segment :=
  (preprocess_segments segments).map fun s => { s with text := remove_fillers s.text }

/-- The chunk texts (translator.py:680, 705): the orchestrator calls
`split_segments_by_time(processed, chunk_duration, max_chars)`, leaving the
hard limit at its default of 2000. -/
def chunkTextsOf (chunkDuration : ℚ) (maxChars : ℕ) (segments : List Segment) : List PyStr :=
  (split_segments_by_time (procSegs segments) chunkDuration maxChars 2000).map fun c =>
    joinLines (c.map Segment.text)

/-- Contexts per chunk index. -/
def ctxListOf (chunkDuration : ℚ) (maxChars : ℕ) (segments : List Segment) : List PyStr :=
  ctxList (chunkTextsOf chunkDuration maxChars segments)

/-- `chunk_data` (translator.py:704-729): the chunks lacking an artifact,
each with its index, source text and context. -/
def chunkDataOf (chunkDuration : ℚ) (maxChars : ℕ) (store₀ : ℕ → Option PyStr)
    (segments : List Segment) : List ChunkInfo :=
  (List.range (chunkTextsOf chunkDuration maxChars segments).length).filterMap fun i =>
    match store₀ i with
    | some _ => none
    | none =>
      some ⟨i, (chunkTextsOf chunkDuration maxChars segments).getD i [],
            (ctxListOf chunkDuration maxChars segments).getD i []⟩

/-- `"\n".join(results)` over the result slots of indices `0..total-1`. -/
def joinResults (total : ℕ) (r : ℕ → Option PyStr) : PyStr :=
  joinLines ((List.range total).map fun i => (r i).getD [])

/-- The chunk store with no artifacts. -/
def emptyStore : ℕ → Option PyStr := fun _ => none

/-- Initial orchestrator state: the result slots `results = [None] * total`
pre-filled from the chunk store (translator.py:700, 709-718), the store
itself, no calls yet, no error. -/
def initSt (store₀ : ℕ → Option PyStr) (total : ℕ) : OrchSt :=
  ⟨fun i => if i < total then store₀ i else none, store₀, [], none⟩

/-- Final orchestrator state after executing the scheduled chunks. -/
def runSt (client : PyStr → PyStr → TResult) (chunkDuration : ℚ) (maxChars : ℕ)
    (store₀ : ℕ → Option PyStr) (segments : List Segment) : OrchSt :=
  execChunks client (chunkDataOf chunkDuration maxChars store₀ segments)
    (initSt store₀ (chunkTextsOf chunkDuration maxChars segments).length)

/-- `translate_by_segments` (translator.py:631-810).  Returns the overall
result, the final chunk store, and the list of chunk indices whose
translation was invoked. -/
def translate_by_segments (client : PyStr → PyStr → TResult) (chunkDuration : ℚ)
    (maxChars : ℕ) (store₀ : ℕ → Option PyStr) (segments : List Segment) :
    TResult × (ℕ → Option PyStr) × List ℕ :=
  if segments = [] then (.ok [], store₀, [])
  else
    let total := (chunkTextsOf chunkDuration maxChars segments).length
    if chunkDataOf chunkDuration maxChars store₀ segments = [] then
      (.ok (joinResults total (initSt store₀ total).results), store₀, [])
    else
      let st := runSt client chunkDuration maxChars store₀ segments
      match st.err with
      | some e => (.fail e, st.store, st.calls)
      | none => (.ok (remove_duplicate_lines (joinResults total st.results)), st.store, st.calls)

/-- The error, if any, a deterministic client raises on a chunk. -/
def failOf (client : PyStr → PyStr → TResult) (cd : ChunkInfo) : Option PyStr :=
  match client cd.text cd.ctx with
  | .ok _ => none
  | .fail e => some e

/-- One started task of the worker pool (`translate_and_save`,
translator.py:748-765): the chunk is translated, and on success its artifact
is written inside the worker and its result slot filled; on failure its
error is recorded (to be surfaced by `as_completed` in completion order). -/
def runTask (client : PyStr → PyStr → TResult) (st : OrchSt × List PyStr)
    (cd : ChunkInfo) : OrchSt × List PyStr :=
  match client cd.text cd.ctx with
  | .ok t =>
    ({ st.1 with
       results := Function.update st.1.results cd.index (some t)
       store := Function.update st.1.store cd.index (some t)
       calls := st.1.calls ++ [cd.index] }, st.2)
  | .fail e => ({ st.1 with calls := st.1.calls ++ [cd.index] }, st.2 ++ [e])

/-- Failure-path model of the worker pool with an explicit schedule.  All
futures are submitted up front (translator.py:768-771) and workers pull
tasks in submission order, so the tasks that begin before `cancel()`
(translator.py:782-784) takes effect form a prefix — of length `started` —
of the submission order; with the default `max_parallel = 3`, up to two
chunks after the first failing one can already be in flight when the failure
is detected.  Every started task runs to completion, writing its artifact on
success; the cancelled suffix never runs.  Returns the final state and the
errors of the failed started tasks, one of which `as_completed` surfaces as
the single `error_result`. -/
def poolFailRun (client : PyStr → PyStr → TResult) (chunkDuration : ℚ) (maxChars : ℕ)
    (store₀ : ℕ → Option PyStr) (segments : List Segment) (started : ℕ) :
    OrchSt × List PyStr :=
  ((chunkDataOf chunkDuration maxChars store₀ segments).take started).foldl
    (runTask client)
    (initSt store₀ (chunkTextsOf chunkDuration maxChars segments).length, [])

/-! ### `check_existing_output` (transcript.py:283-341) -/

/-- The resume-stage derivation of `check_existing_output`
(transcript.py:318-326), as a pure function of artifact presence. -/
def resume_from (hasAudio hasKorean hasOriginal : Bool) : String :=
  if hasAudio && hasKorean then "done"
  else if hasKorean then "tts"
  else if hasOriginal then "translate"
  else "start"

/-- Modelled from the claim's words (C10): "done" iff both the audio file
and the translated transcript exist, "tts" iff the translated transcript
exists without the audio file, "translate" iff only the original transcript
exists, and "start" otherwise. -/
def claimStage (hasAudio hasKorean hasOriginal : Bool) : String :=
  if hasAudio && hasKorean then "done"
  else if hasKorean && !hasAudio then "tts"
  else if hasOriginal && !hasKorean && !hasAudio then "translate"
  else "start"

/-- Canonical per-index translation output for a deterministic client: what
the client returns on chunk `i`'s source text and context. -/
def clientOut (client : PyStr → PyStr → TResult) (chunkDuration : ℚ) (maxChars : ℕ)
    (segments : List Segment) (i : ℕ) : PyStr :=
  match client ((chunkTextsOf chunkDuration maxChars segments).getD i [])
      ((ctxListOf chunkDuration maxChars segments).getD i []) with
  | .ok t => t
  | .fail _ => []

/-- Two plain segments two minutes apart, which the chunker puts into two
separate chunks; used by the orchestrator witnesses. -/
def exSegs : List Segment :=
  [⟨"00:00:00.000".data, "00:00:05.000".data, "Alpha.".data⟩,
   ⟨"00:02:00.000".data, "00:02:05.000".data, "Beta.".data⟩]

/-- Deterministic client echoing the chunk text. -/
def clientId : PyStr → PyStr → TResult := fun t _ => .ok t

/-- Deterministic client returning the same line for every chunk, making the
duplicate-line repair pass observable. -/
def clientDup : PyStr → PyStr → TResult := fun _ _ => .ok "Dup.".data

/-- Deterministic client failing on the first chunk of `exSegs`. -/
def clientFail : PyStr → PyStr → TResult := fun t _ =>
  if t = "Alpha.".data then .fail "boom".data else .ok t

/-- Chunk store holding exactly the artifact a fresh `clientId` run writes
for index 0, and nothing else. -/
def storeW : ℕ → Option PyStr := fun i =>
  if i = 0 then (translate_by_segments clientId 60 1500 emptyStore exSegs).2.1 0 else none

/-- Segments on which the Preprocessor is not idempotent: the prefix-strip
of the second segment leaves "a.", so the first pass outputs texts
["q.", "a.", "a."], and only the second pass removes the now-adjacent
duplicate. -/
def exC7Segs : List Segment :=
  [⟨"00:00:00.000".data, "00:00:01.000".data, "q.".data⟩,
   ⟨"00:00:01.000".data, "00:00:02.000".data, "q. a.".data⟩,
   ⟨"00:00:02.000".data, "00:00:03.000".data, "a.".data⟩]

/-- Segments with non-overlapping sentence-final texts, on which the
Preprocessor is idempotent. -/
def exC7W : List Segment :=
  [⟨"00:00:00.000".data, "00:00:01.000".data, "Hi.".data⟩,
   ⟨"00:00:01.000".data, "00:00:02.000".data, "Bye.".data⟩]

/-- Oracle for the C8 witness: a retryable connection error, then a
non-retryable error, then successes. -/
def oracleW : ℕ → Except PyStr PyStr := fun n =>
  if n = 0 then .error "Connection refused".data
  else if n = 1 then .error "bad request".data
  else .ok "x".data

/-- Invariant carried through the fold of `split_segments_by_time`: the
finished chunks plus the running chunk cover exactly the consumed segments,
finished chunks are non-empty, `current_chars` counts the running chunk, the
multi-segment chunks respect the hard limit, and `chunk_start_time` is the
start time of the running chunk's first segment. -/
def SplitInv (hard : ℕ) (done : List Segment) (st : SplitSt) : Prop :=
  st.chunks.flatten ++ st.cur = done ∧
  (∀ c ∈ st.chunks, c ≠ []) ∧
  st.chars = charSum st.cur ∧
  (∀ c ∈ st.chunks, 2 ≤ c.length → charSum c ≤ hard) ∧
  (2 ≤ st.cur.length → charSum st.cur ≤ hard) ∧
  (st.cur = [] → st.startT = 0) ∧
  (∀ s0, st.cur.head? = some s0 → st.startT = time_to_seconds s0.start)

/-- Chunker state for the C5 witness: one buffered sentence-final segment. -/
def stW : SplitSt :=
  ⟨[], [⟨"00:00:00.000".data, "00:00:05.000".data, "Hi.".data⟩], 0, 3⟩

/-- Incoming segment for the C5 witness, two minutes later. -/
def segW : Segment := ⟨"00:02:00.000".data, "00:02:05.000".data, "Bye.".data⟩

/-! ## Theorems -/

/-- Claim C10, as stated, fails at the artifact combination where the audio
file and the original transcript exist but the translated transcript does
not: the code resumes at "translate", while the claimed mapping ("translate"
iff only the original transcript exists, "start" otherwise) yields
"start". -/
theorem C10_counterexample :
    resume_from true false true = "translate" ∧
    claimStage true false true = "start" ∧
    resume_from true false true ≠ claimStage true false true := by
  refine ⟨rfl, rfl, by decide⟩

/-- Claim C10 (amended): `check_existing_output` derives the stage as a pure
function of artifact presence — "done" iff audio and translated transcript
both exist, "tts" iff the translated transcript exists without the audio
file, "translate" iff the original transcript exists and the translated one
does not (regardless of the audio file), and "start" iff neither transcript
exists. -/
theorem C10_stage_derivation (a k o : Bool) :
    (resume_from a k o = "done" ↔ a = true ∧ k = true) ∧
    (resume_from a k o = "tts" ↔ k = true ∧ a = false) ∧
    (resume_from a k o = "translate" ↔ o = true ∧ k = false) ∧
    (resume_from a k o = "start" ↔ o = false ∧ k = false) := by
  cases a <;> cases k <;> cases o <;> decide

/-- Claim C9: empty (or whitespace-only) input text makes `translate_text`
return success with empty output immediately: zero attempts (no network
call) and no Ollama pre-flight check. -/
theorem C9_empty_input_short_circuit (text apiKey baseUrl : PyStr) (maxRetries : ℕ)
    (ollamaAvailable : Bool) (ollamaErr : PyStr) (oracle : ℕ → Except PyStr PyStr)
    (h : strip text = []) :
    translate_text text apiKey baseUrl maxRetries ollamaAvailable ollamaErr oracle =
      (.ok [], 0, false) := by
  simp [translate_text, h]

/-- Witness for C9 at a whitespace-only input. -/
theorem C9_witness :
    strip " \t ".data = ([] : PyStr) ∧
    translate_text " \t ".data "key".data "https://api.z.ai".data 2 true []
      (fun _ => .error "net".data) = (.ok [], 0, false) :=
  ⟨by decide, C9_empty_input_short_circuit _ _ _ _ _ _ _ (by decide)⟩

/-- Behaviour of the retry loop of `translate_text`: at most `r` attempts
from a remaining budget of `r`; every attempt except the last was a
retryable error; a non-retryable error ends the loop at once with that
failure. -/
theorem translateLoop_spec (oracle : ℕ → Except PyStr PyStr) (mr : ℕ) :
    ∀ (r a : ℕ) (le : PyStr),
      (translateLoop oracle mr a r le).2 ≤ r ∧
      (∀ i, a ≤ i → i + 1 < a + (translateLoop oracle mr a r le).2 →
        ∃ e, oracle i = .error e ∧ retryable e = true) ∧
      (∀ i e, a ≤ i → i < a + (translateLoop oracle mr a r le).2 → oracle i = .error e →
        retryable e = false →
        a + (translateLoop oracle mr a r le).2 = i + 1 ∧
        (translateLoop oracle mr a r le).1 = .fail (failMsg mr e)) := by
  intro r
  induction r with
  | zero =>
    intro a le
    refine ⟨le_rfl, ?_, ?_⟩
    · intro i hai hi; simp [translateLoop] at hi; omega
    · intro i e hai hi; simp [translateLoop] at hi; omega
  | succ r ih =>
    intro a le
    match ho : oracle a with
    | .ok resp =>
      refine ⟨?_, ?_, ?_⟩
      · simp [translateLoop, ho]
      · intro i hai hi
        simp [translateLoop, ho] at hi
        omega
      · intro i e hai hi hoe hre
        simp [translateLoop, ho] at hi
        have : i = a := by omega
        rw [this, ho] at hoe
        exact absurd hoe (by simp)
    | .error e0 =>
      by_cases hr : retryable e0 = true
      · have hloop : translateLoop oracle mr a (r + 1) le =
            ((translateLoop oracle mr (a + 1) r e0).1,
             (translateLoop oracle mr (a + 1) r e0).2 + 1) := by
          simp [translateLoop, ho, hr]
        obtain ⟨ih1, ih2, ih3⟩ := ih (a + 1) e0
        refine ⟨?_, ?_, ?_⟩
        · rw [hloop]; simpa using Nat.succ_le_succ ih1
        · intro i hai hi
          rw [hloop] at hi
          rcases Nat.lt_or_ge a i with hlt | hge
          · exact ih2 i hlt (by omega)
          · have : i = a := le_antisymm hge hai
            exact ⟨e0, by rw [this]; exact ho, hr⟩
        · intro i e hai hi hoe hre
          rw [hloop] at hi ⊢
          rcases Nat.lt_or_ge a i with hlt | hge
          · have h3 := ih3 i e hlt (by omega) hoe hre
            exact ⟨by omega, h3.2⟩
          · have : i = a := le_antisymm hge hai
            rw [this, ho] at hoe
            have : e0 = e := by injection hoe
            rw [← this] at hre
            rw [hr] at hre
            exact absurd hre (by simp)
      · have hr' : retryable e0 = false := by
          cases h : retryable e0
          · rfl
          · exact absurd h hr
        have hloop : translateLoop oracle mr a (r + 1) le =
            (.fail (failMsg mr e0), 1) := by
          simp [translateLoop, ho, hr']
        refine ⟨?_, ?_, ?_⟩
        · rw [hloop]; omega
        · intro i hai hi
          rw [hloop] at hi
          simp at hi
          omega
        · intro i e hai hi hoe hre
          rw [hloop] at hi
          simp at hi
          have hia : i = a := by omega
          rw [hia, ho] at hoe
          have he : e0 = e := by injection hoe
          rw [hloop, hia, ← he]
          exact ⟨rfl, rfl⟩

/-- Claim C8: `translate_text` makes at most `maxRetries` attempts beyond
the first; every attempt before the last one was made only because the
previous error's text contained a timeout or connection indication
(case-insensitively); any attempt raising a non-retryable error is the last
one, and the call then fails with that error. -/
theorem C8_retry_policy (text apiKey baseUrl : PyStr) (maxRetries : ℕ)
    (ollamaAvailable : Bool) (ollamaErr : PyStr) (oracle : ℕ → Except PyStr PyStr) :
    (translate_text text apiKey baseUrl maxRetries ollamaAvailable ollamaErr oracle).2.1 ≤
      maxRetries + 1 ∧
    (∀ i, i + 1 < (translate_text text apiKey baseUrl maxRetries ollamaAvailable ollamaErr
        oracle).2.1 →
      ∃ e, oracle i = .error e ∧ retryable e = true) ∧
    (∀ i e, i < (translate_text text apiKey baseUrl maxRetries ollamaAvailable ollamaErr
        oracle).2.1 →
      oracle i = .error e → retryable e = false →
      (translate_text text apiKey baseUrl maxRetries ollamaAvailable ollamaErr oracle).2.1 =
        i + 1 ∧
      (translate_text text apiKey baseUrl maxRetries ollamaAvailable ollamaErr oracle).1 =
        .fail (failMsg maxRetries e)) := by
  obtain ⟨h1, h2, h3⟩ := translateLoop_spec oracle maxRetries (maxRetries + 1) 0 "None".data
  simp only [Nat.zero_add, Nat.zero_le, true_implies] at h1 h2 h3
  by_cases ht : strip text = []
  · refine ⟨by simp [translate_text, ht], ?_, ?_⟩
    · intro i hi; simp [translate_text, ht] at hi
    · intro i e hi; simp [translate_text, ht] at hi
  · by_cases hol : pyIn "localhost:11434".data baseUrl = true
    · by_cases hav : ollamaAvailable = false
      · refine ⟨by simp [translate_text, ht, hol, hav], ?_, ?_⟩
        · intro i hi; simp [translate_text, ht, hol, hav] at hi
        · intro i e hi; simp [translate_text, ht, hol, hav] at hi
      · have hav' : ¬ollamaAvailable = false := hav
        have hEq : translate_text text apiKey baseUrl maxRetries ollamaAvailable ollamaErr
            oracle = ((translateLoop oracle maxRetries 0 (maxRetries + 1) "None".data).1,
              (translateLoop oracle maxRetries 0 (maxRetries + 1) "None".data).2, true) := by
          unfold translate_text
          rw [if_neg ht, if_pos hol, if_neg hav']
        rw [hEq]
        exact ⟨h1, fun i hi => h2 i hi, h3⟩
    · by_cases hk : apiKey = ([] : PyStr)
      · refine ⟨by simp [translate_text, ht, hol, hk], ?_, ?_⟩
        · intro i hi; simp [translate_text, ht, hol, hk] at hi
        · intro i e hi; simp [translate_text, ht, hol, hk] at hi
      · have hol' : ¬pyIn "localhost:11434".data baseUrl = true := hol
        have hEq : translate_text text apiKey baseUrl maxRetries ollamaAvailable ollamaErr
            oracle = ((translateLoop oracle maxRetries 0 (maxRetries + 1) "None".data).1,
              (translateLoop oracle maxRetries 0 (maxRetries + 1) "None".data).2, false) := by
          unfold translate_text
          rw [if_neg ht, if_neg hol', if_neg hk]
        rw [hEq]
        exact ⟨h1, fun i hi => h2 i hi, h3⟩

/-- Witness for C8: with `maxRetries = 2`, the first (retryable) error is
re-attempted, the second (non-retryable) error stops the loop after exactly
two attempts and is reported as the failure. -/
theorem C8_witness :
    (translate_text "hi".data "key".data "https://api.z.ai".data 2 true [] oracleW).2.1 ≤ 3 ∧
    (∃ e, oracleW 0 = .error e ∧ retryable e = true) ∧
    ((translate_text "hi".data "key".data "https://api.z.ai".data 2 true [] oracleW).2.1 =
       2 ∧
     (translate_text "hi".data "key".data "https://api.z.ai".data 2 true [] oracleW).1 =
       .fail (failMsg 2 "bad request".data)) := by
  obtain ⟨h1, h2, h3⟩ :=
    C8_retry_policy "hi".data "key".data "https://api.z.ai".data 2 true [] oracleW
  exact ⟨h1, h2 0 (by decide), h3 1 "bad request".data (by decide) rfl (by decide)⟩

/-- Claim C6, as stated, pins the wrong output on its own example: on input
lines `["The cat sat.", "The cat sat.", "The cat sat on the mat."]` the code
keeps two lines, because `"The cat sat."` (with its final period) is not a
substring of `"The cat sat on the mat."`, so the substring-replacement rule
does not fire on the third line. -/
theorem C6_counterexample :
    remove_duplicate_lines "The cat sat.\nThe cat sat.\nThe cat sat on the mat.".data =
      "The cat sat.\nThe cat sat on the mat.".data ∧
    "The cat sat.\nThe cat sat on the mat.".data ≠
      "The cat sat on the mat.".data := by
  exact ⟨by decide, by decide⟩

/-- Claim C6 (amended): `remove_duplicate_lines` scans line by line with
state `(result, prev)`: a blank line passes through and resets the state; a
line whose stripped text equals `prev` is dropped; if `prev` is a substring
of the stripped line, the last kept line is replaced by the current line; if
the stripped line is a substring of `prev`, the line is dropped; otherwise
the line is kept.  On the example input the output keeps both distinct
lines. -/
theorem C6_duplicate_line_repair :
    (∀ res prev line, strip line = ([] : PyStr) →
       rdlStep (res, prev) line = (res ++ [line], [])) ∧
    (∀ res prev line, prev ≠ ([] : PyStr) → strip line = prev →
       rdlStep (res, prev) line = (res, prev)) ∧
    (∀ (res : List PyStr) prev line, res ≠ [] → prev ≠ ([] : PyStr) → strip line ≠ prev →
       pyIn prev (strip line) = true →
       rdlStep (res, prev) line = (res.dropLast ++ [line], strip line)) ∧
    (∀ res prev line, prev ≠ ([] : PyStr) → strip line ≠ ([] : PyStr) → strip line ≠ prev →
       pyIn prev (strip line) = false → pyIn (strip line) prev = true →
       rdlStep (res, prev) line = (res, prev)) ∧
    (∀ res prev line, strip line ≠ ([] : PyStr) → strip line ≠ prev →
       (prev = ([] : PyStr) ∨ pyIn prev (strip line) = false) →
       (prev = ([] : PyStr) ∨ pyIn (strip line) prev = false) →
       rdlStep (res, prev) line = (res ++ [line], strip line)) ∧
    remove_duplicate_lines "The cat sat.\nThe cat sat.\nThe cat sat on the mat.".data =
      "The cat sat.\nThe cat sat on the mat.".data := by
  refine ⟨?_, ?_, ?_, ?_, ?_, by decide⟩
  · intro res prev line h
    simp [rdlStep, h]
  · intro res prev line hp h
    have hne : strip line ≠ [] := by rw [h]; exact hp
    simp [rdlStep, h, hne, hp]
  · intro res prev line hres hp hne hin
    have hs : strip line ≠ [] := by
      intro hs
      rw [hs] at hin
      have hemp : prev.isEmpty = true := hin
      exact hp (by simpa using hemp)
    simp [rdlStep, hs, hne, hp, hin, hres]
  · intro res prev line hp hs hne hin hin2
    simp [rdlStep, hs, hne, hp, hin, hin2]
  · intro res prev line hs hne hd1 hd2
    rcases hd1 with hp | hin
    · simp [rdlStep, hs, hne, hp]
    · rcases hd2 with hp | hin2
      · simp [rdlStep, hs, hne, hp]
      · simp [rdlStep, hs, hne, hin, hin2]

/-- Witness for the amended C6, exercising each rule at a concrete state. -/
theorem C6_witness :
    rdlStep (["x".data], "x".data) " \t ".data = (["x".data] ++ [" \t ".data], []) ∧
    rdlStep (["a".data], "a".data) " a ".data = (["a".data], "a".data) ∧
    rdlStep (["ab".data], "ab".data) "abc".data =
      (["ab".data].dropLast ++ ["abc".data], strip "abc".data) ∧
    rdlStep (["abc".data], "abc".data) "bc".data = (["abc".data], "abc".data) ∧
    rdlStep (([] : List PyStr), ([] : PyStr)) "hi".data =
      (([] : List PyStr) ++ ["hi".data], strip "hi".data) := by
  refine ⟨C6_duplicate_line_repair.1 _ _ _ (by decide),
          C6_duplicate_line_repair.2.1 _ _ _ (by decide) (by decide),
          C6_duplicate_line_repair.2.2.1 _ _ _ (by decide) (by decide) (by decide) (by decide),
          C6_duplicate_line_repair.2.2.2.1 _ _ _ (by decide) (by decide) (by decide) (by decide)
            (by decide),
          C6_duplicate_line_repair.2.2.2.2.1 _ _ _ (by decide) (by decide) (Or.inl rfl)
            (Or.inl rfl)⟩

/-! ### Chunker lemmas (C3, C4, C5) -/

theorem ratSub_eq (a b : ℚ) : ratSub a b = a - b := by
  have ha : ((a.den : ℚ)) ≠ 0 := by
    exact_mod_cast a.den_nz
  have hb : ((b.den : ℚ)) ≠ 0 := by
    exact_mod_cast b.den_nz
  unfold ratSub
  rw [Rat.mkRat_eq_div]
  conv_rhs => rw [← Rat.num_div_den a, ← Rat.num_div_den b]
  rw [div_sub_div _ _ ha hb]
  push_cast
  ring_nf

theorem charSum_append (l1 l2 : List Segment) :
    charSum (l1 ++ l2) = charSum l1 + charSum l2 := by
  simp [charSum]

theorem append_singleton_ne (l : List (List Segment)) (x : List Segment) :
    l ++ [x] ≠ l := by
  intro h
  have := congrArg List.length h
  simp at this

theorem splitStep_eq_true (d : ℚ) (soft hard : ℕ) (st : SplitSt) (seg : Segment)
    (h : splitCond d soft hard st seg = true) :
    splitStep d soft hard st seg =
      ⟨st.chunks ++ [st.cur], [seg], time_to_seconds seg.start, seg.text.length⟩ := by
  simp [splitStep, h]

theorem splitStep_eq_false (d : ℚ) (soft hard : ℕ) (st : SplitSt) (seg : Segment)
    (h : splitCond d soft hard st seg = false) :
    splitStep d soft hard st seg =
      ⟨st.chunks, st.cur ++ [seg],
        if (st.cur ++ [seg]).length = 1 ∧ st.startT = 0 then time_to_seconds seg.start
        else st.startT,
        st.chars + seg.text.length⟩ := by
  simp [splitStep, h]

theorem splitCond_cur_ne (d : ℚ) (soft hard : ℕ) (st : SplitSt) (seg : Segment)
    (h : splitCond d soft hard st seg = true) : st.cur ≠ [] := by
  by_cases hc : st.cur = []
  · simp [splitCond, hc] at h
  · exact hc

theorem splitStep_inv (d : ℚ) (soft hard : ℕ) (done : List Segment) (st : SplitSt)
    (seg : Segment) (h : SplitInv hard done st) :
    SplitInv hard (done ++ [seg]) (splitStep d soft hard st seg) := by
  obtain ⟨hjoin, hne, hchars, hbound, hcurb, hstz, hstart⟩ := h
  cases hc : splitCond d soft hard st seg
  · rw [splitStep_eq_false d soft hard st seg hc]
    refine ⟨?_, hne, ?_, hbound, ?_, ?_, ?_⟩
    · show st.chunks.flatten ++ (st.cur ++ [seg]) = done ++ [seg]
      rw [← List.append_assoc, hjoin]
    · show st.chars + seg.text.length = charSum (st.cur ++ [seg])
      rw [charSum_append, hchars]
      simp [charSum]
    · show 2 ≤ (st.cur ++ [seg]).length → charSum (st.cur ++ [seg]) ≤ hard
      intro hlen
      cases hcur : st.cur with
      | nil =>
        rw [hcur] at hlen
        simp at hlen
      | cons c0 rest =>
        have hcne : st.cur ≠ [] := by rw [hcur]; simp
        have hhard : ¬st.chars + seg.text.length > hard := by
          intro hgt
          have hT : splitCond d soft hard st seg = true := by
            simp [splitCond, hcne, hgt]
          rw [hT] at hc
          exact Bool.noConfusion hc
        have hcs : charSum (st.cur ++ [seg]) = st.chars + seg.text.length := by
          rw [charSum_append, hchars]
          simp [charSum]
        rw [← hcur, hcs]
        omega
    · intro habs
      exact absurd habs (by simp)
    · intro s0 hs0
      have hs0' : (st.cur ++ [seg]).head? = some s0 := hs0
      show (if (st.cur ++ [seg]).length = 1 ∧ st.startT = 0 then time_to_seconds seg.start
            else st.startT) = time_to_seconds s0.start
      cases hcur : st.cur with
      | nil =>
        rw [hcur] at hs0'
        simp at hs0'
        rw [if_pos ⟨by simp, hstz hcur⟩, hs0']
      | cons c0 rest =>
        rw [hcur] at hs0'
        simp at hs0'
        have hcd : ¬(((c0 :: rest) ++ [seg]).length = 1 ∧ st.startT = 0) := by
          intro hcd
          simp at hcd
        rw [if_neg hcd, ← hs0']
        exact hstart c0 (by rw [hcur]; rfl)
  · rw [splitStep_eq_true d soft hard st seg hc]
    have hcne := splitCond_cur_ne d soft hard st seg hc
    refine ⟨?_, ?_, ?_, ?_, ?_, ?_, ?_⟩
    · show (st.chunks ++ [st.cur]).flatten ++ [seg] = done ++ [seg]
      have hj : (st.chunks ++ [st.cur]).flatten = done := by
        rw [List.flatten_append, ← hjoin]
        simp
      rw [hj]
    · intro c hcmem
      simp only [List.mem_append, List.mem_singleton] at hcmem
      rcases hcmem with hm | hm
      · exact hne c hm
      · rw [hm]; exact hcne
    · show seg.text.length = charSum [seg]
      simp [charSum]
    · intro c hcmem
      simp only [List.mem_append, List.mem_singleton] at hcmem
      rcases hcmem with hm | hm
      · exact hbound c hm
      · subst hm
        exact hcurb
    · intro hlen
      simp at hlen
    · intro habs
      exact absurd habs (by simp)
    · intro s0 hs0
      simp at hs0
      rw [hs0]

theorem splitFold_inv (d : ℚ) (soft hard : ℕ) :
    ∀ (segs done : List Segment) (st : SplitSt),
      SplitInv hard done st →
      SplitInv hard (done ++ segs) (segs.foldl (splitStep d soft hard) st) := by
  intro segs
  induction segs with
  | nil => intro done st h; simpa using h
  | cons s rest ih =>
    intro done st h
    have h2 := ih (done ++ [s]) _ (splitStep_inv d soft hard done st s h)
    simpa [List.append_assoc] using h2

theorem split_inv_final (segments : List Segment) (d : ℚ) (soft hard : ℕ) :
    (split_segments_by_time segments d soft hard).flatten = segments ∧
    (∀ c ∈ split_segments_by_time segments d soft hard, c ≠ []) ∧
    (∀ c ∈ split_segments_by_time segments d soft hard, 2 ≤ c.length → charSum c ≤ hard) := by
  by_cases hseg : segments = []
  · subst hseg
    simp [split_segments_by_time]
  · have hinit : SplitInv hard [] ⟨[], [], 0, 0⟩ := by
      refine ⟨rfl, by simp, by simp [charSum], by simp, by simp, fun _ => rfl, by simp⟩
    have h := splitFold_inv d soft hard segments [] _ hinit
    simp only [List.nil_append] at h
    obtain ⟨hjoin, hne, _, hbound, hcurb, _, _⟩ := h
    simp only [split_segments_by_time, if_neg hseg]
    set fin := segments.foldl (splitStep d soft hard) ⟨[], [], 0, 0⟩ with hfin
    by_cases hcur : fin.cur ≠ []
    · rw [if_pos hcur]
      refine ⟨?_, ?_, ?_⟩
      · rw [List.flatten_append]
        simpa using hjoin
      · intro c hcmem
        simp only [List.mem_append, List.mem_singleton] at hcmem
        rcases hcmem with hm | hm
        · exact hne c hm
        · rw [hm]; exact hcur
      · intro c hcmem
        simp only [List.mem_append, List.mem_singleton] at hcmem
        rcases hcmem with hm | hm
        · exact hbound c hm
        · subst hm; exact hcurb
    · rw [if_neg hcur]
      have hnil : fin.cur = [] := not_not.mp hcur
      rw [hnil, List.append_nil] at hjoin
      exact ⟨hjoin, hne, hbound⟩

/-- Claim C3: the chunks returned by `split_segments_by_time`, flattened in
order, are exactly the input segment list — no segment is dropped,
duplicated or reordered — and every produced chunk is non-empty. -/
theorem C3_chunker_coverage (segments : List Segment) (chunkDuration : ℚ)
    (maxChars hardLimit : ℕ) :
    (split_segments_by_time segments chunkDuration maxChars hardLimit).flatten = segments ∧
    ∀ c ∈ split_segments_by_time segments chunkDuration maxChars hardLimit, c ≠ [] :=
  ⟨(split_inv_final segments chunkDuration maxChars hardLimit).1,
   (split_inv_final segments chunkDuration maxChars hardLimit).2.1⟩

/-- Claim C4: every chunk produced by `split_segments_by_time` that contains
at least two segments has total text length at most `hard_limit`, and the
flattened output is the unaltered input, so a single oversized segment is
kept intact in its own chunk rather than truncated. -/
theorem C4_chunker_limits (segments : List Segment) (chunkDuration : ℚ)
    (maxChars hardLimit : ℕ) :
    (∀ c ∈ split_segments_by_time segments chunkDuration maxChars hardLimit,
       2 ≤ c.length → charSum c ≤ hardLimit) ∧
    (split_segments_by_time segments chunkDuration maxChars hardLimit).flatten = segments :=
  ⟨(split_inv_final segments chunkDuration maxChars hardLimit).2.2,
   (split_inv_final segments chunkDuration maxChars hardLimit).1⟩

theorem splitCond_eq_true_iff (d : ℚ) (soft hard : ℕ) (st : SplitSt) (seg : Segment)
    (hchars : st.chars = charSum st.cur)
    (hstart : ∀ s0, st.cur.head? = some s0 → st.startT = time_to_seconds s0.start) :
    splitCond d soft hard st seg = true ↔
      st.cur ≠ [] ∧
        ((∃ s0, st.cur.head? = some s0 ∧
            time_to_seconds seg.start - time_to_seconds s0.start ≥ d) ∨
         charSum st.cur + seg.text.length > hard ∨
         (charSum st.cur ≥ soft ∧ is_sentence_end (lastText st.cur) = true)) := by
  simp only [splitCond, Bool.or_eq_true, Bool.and_eq_true, decide_eq_true_eq]
  constructor
  · rintro ((⟨hne, ha⟩ | ⟨hne, hb⟩) | ⟨hne, hc1, hc2⟩)
    · obtain ⟨c0, rest, hcr⟩ := List.exists_cons_of_ne_nil hne
      refine ⟨hne, Or.inl ⟨c0, by rw [hcr]; rfl, ?_⟩⟩
      rw [ratSub_eq] at ha
      rw [← hstart c0 (by rw [hcr]; rfl)]
      exact ha
    · exact ⟨hne, Or.inr (Or.inl (by rw [← hchars]; exact hb))⟩
    · exact ⟨hne, Or.inr (Or.inr ⟨by rw [← hchars]; exact hc1, hc2⟩)⟩
  · rintro ⟨hne, ⟨s0, hs0, ha⟩ | hb | ⟨hc1, hc2⟩⟩
    · refine Or.inl (Or.inl ⟨hne, ?_⟩)
      rw [ratSub_eq, hstart s0 hs0]
      exact ha
    · exact Or.inl (Or.inr ⟨hne, by rw [hchars]; exact hb⟩)
    · exact Or.inr ⟨hne, by rw [hchars]; exact hc1, hc2⟩

/-- Claim C5: on each incoming segment, the chunker starts a new chunk
before appending the segment if and only if the running chunk is non-empty
and at least one of: (a) the segment's start time minus the chunk's start
time (the start time of the chunk's first segment) is at least
`chunk_duration`; (b) appending the segment would push the chunk's character
total past `hard_limit`; (c) the chunk's character total is already at least
`max_chars` and the chunk's last segment ends in a sentence-terminal
character.  The hypotheses are the invariants, maintained by the loop, that
`current_chars` counts the running chunk and `chunk_start_time` is the start
time of its first segment. -/
theorem C5_split_condition (d : ℚ) (soft hard : ℕ) (st : SplitSt) (seg : Segment)
    (hchars : st.chars = charSum st.cur)
    (hstart : ∀ s0, st.cur.head? = some s0 → st.startT = time_to_seconds s0.start) :
    ((splitStep d soft hard st seg).chunks ≠ st.chunks ↔
      st.cur ≠ [] ∧
        ((∃ s0, st.cur.head? = some s0 ∧
            time_to_seconds seg.start - time_to_seconds s0.start ≥ d) ∨
         charSum st.cur + seg.text.length > hard ∨
         (charSum st.cur ≥ soft ∧ is_sentence_end (lastText st.cur) = true))) ∧
    ((splitStep d soft hard st seg).chunks ≠ st.chunks →
      (splitStep d soft hard st seg).chunks = st.chunks ++ [st.cur] ∧
      (splitStep d soft hard st seg).cur = [seg]) ∧
    ((splitStep d soft hard st seg).chunks = st.chunks →
      (splitStep d soft hard st seg).cur = st.cur ++ [seg]) := by
  have hiff := splitCond_eq_true_iff d soft hard st seg hchars hstart
  cases hc : splitCond d soft hard st seg
  · rw [splitStep_eq_false d soft hard st seg hc]
    refine ⟨?_, ?_, ?_⟩
    · constructor
      · intro hne
        exact absurd rfl hne
      · intro hrhs
        rw [hiff.mpr hrhs] at hc
        exact Bool.noConfusion hc
    · intro hne
      exact absurd rfl hne
    · intro _
      rfl
  · rw [splitStep_eq_true d soft hard st seg hc]
    refine ⟨?_, ?_, ?_⟩
    · constructor
      · intro _
        exact hiff.mp hc
      · intro _
        exact append_singleton_ne st.chunks st.cur
    · intro _
      exact ⟨rfl, rfl⟩
    · intro heq
      exact absurd heq (append_singleton_ne st.chunks st.cur)

/-! ### Orchestrator lemmas (C1, C2) -/

theorem execChunks_ok (client : PyStr → PyStr → TResult) (out : ℕ → PyStr) :
    ∀ (cds : List ChunkInfo) (st : OrchSt),
      (∀ cd ∈ cds, client cd.text cd.ctx = .ok (out cd.index)) →
      ((execChunks client cds st).results = fun i =>
         if i ∈ cds.map (fun c => c.index) then some (out i) else st.results i) ∧
      ((execChunks client cds st).store = fun i =>
         if i ∈ cds.map (fun c => c.index) then some (out i) else st.store i) ∧
      (execChunks client cds st).calls = st.calls ++ cds.map (fun c => c.index) ∧
      (execChunks client cds st).err = st.err := by
  intro cds
  induction cds with
  | nil =>
    intro st h
    refine ⟨?_, ?_, by simp [execChunks], rfl⟩ <;> funext i <;> simp [execChunks]
  | cons cd rest ih =>
    intro st h
    have hcd := h cd (by simp)
    have hstep : execChunks client (cd :: rest) st = execChunks client rest
        { st with
          results := Function.update st.results cd.index (some (out cd.index))
          store := Function.update st.store cd.index (some (out cd.index))
          calls := st.calls ++ [cd.index] } := by
      simp [execChunks, hcd]
    obtain ⟨h1, h2, h3, h4⟩ := ih
      { st with
        results := Function.update st.results cd.index (some (out cd.index))
        store := Function.update st.store cd.index (some (out cd.index))
        calls := st.calls ++ [cd.index] }
      (fun c hc => h c (by simp [hc]))
    rw [hstep]
    refine ⟨?_, ?_, ?_, h4⟩
    · rw [h1]
      funext i
      by_cases hr : i ∈ rest.map (fun c => c.index)
      · simp [hr]
      · by_cases hi : i = cd.index
        · subst hi
          simp [hr, Function.update_same]
        · simp [hr, hi, Function.update_noteq hi]
    · rw [h2]
      funext i
      by_cases hr : i ∈ rest.map (fun c => c.index)
      · simp [hr]
      · by_cases hi : i = cd.index
        · subst hi
          simp [hr, Function.update_same]
        · simp [hr, hi, Function.update_noteq hi]
    · rw [h3]
      simp

theorem execChunks_err_none (client : PyStr → PyStr → TResult) :
    ∀ (cds : List ChunkInfo) (st : OrchSt), st.err = none →
      ((execChunks client cds st).err = none ↔
        ∀ cd ∈ cds, ∃ t, client cd.text cd.ctx = .ok t) := by
  intro cds
  induction cds with
  | nil =>
    intro st h
    simp [execChunks, h]
  | cons cd rest ih =>
    intro st h
    cases hc : client cd.text cd.ctx with
    | ok t =>
      have hstep : execChunks client (cd :: rest) st = execChunks client rest
          { st with
            results := Function.update st.results cd.index (some t)
            store := Function.update st.store cd.index (some t)
            calls := st.calls ++ [cd.index] } := by
        simp [execChunks, hc]
      rw [hstep, ih _ (by simp [h])]
      constructor
      · intro hall
        intro c hcm
        rcases List.mem_cons.mp hcm with hm | hm
        · exact ⟨t, by rw [hm]; exact hc⟩
        · exact hall c hm
      · intro hall c hcm
        exact hall c (List.mem_cons_of_mem _ hcm)
    | fail e =>
      have hstep : execChunks client (cd :: rest) st =
          { st with calls := st.calls ++ [cd.index], err := some e } := by
        simp [execChunks, hc]
      rw [hstep]
      constructor
      · intro habs
        exact absurd habs (by simp)
      · intro hall
        obtain ⟨t, ht⟩ := hall cd (by simp)
        rw [hc] at ht
        exact absurd ht (by simp)

theorem mem_chunkDataOf (d : ℚ) (mc : ℕ) (store₀ : ℕ → Option PyStr)
    (segs : List Segment) (cd : ChunkInfo) :
    cd ∈ chunkDataOf d mc store₀ segs ↔
      cd.index < (chunkTextsOf d mc segs).length ∧ store₀ cd.index = none ∧
      cd = ⟨cd.index, (chunkTextsOf d mc segs).getD cd.index [],
            (ctxListOf d mc segs).getD cd.index []⟩ := by
  unfold chunkDataOf
  rw [List.mem_filterMap]
  constructor
  · rintro ⟨i, hi, hf⟩
    rw [List.mem_range] at hi
    cases hs : store₀ i with
    | some t =>
      rw [hs] at hf
      exact absurd hf (by simp)
    | none =>
      rw [hs] at hf
      simp only [Option.some.injEq] at hf
      rw [← hf]
      exact ⟨hi, hs, rfl⟩
  · rintro ⟨hlt, hnone, hcd⟩
    refine ⟨cd.index, List.mem_range.mpr hlt, ?_⟩
    rw [hnone, ← hcd]

theorem chunkDataOf_index_nodup (d : ℚ) (mc : ℕ) (store₀ : ℕ → Option PyStr)
    (segs : List Segment) :
    ((chunkDataOf d mc store₀ segs).map (fun c => c.index)).Nodup := by
  unfold chunkDataOf
  rw [List.map_filterMap]
  refine List.Nodup.filterMap ?_ (List.nodup_range _)
  intro a a' b hb hb'
  cases hs : store₀ a with
  | some t =>
    rw [hs] at hb
    exact absurd hb (by simp)
  | none =>
    rw [hs] at hb
    simp only [Option.map_some', Option.mem_def, Option.some.injEq] at hb
    cases hs' : store₀ a' with
    | some t =>
      rw [hs'] at hb'
      exact absurd hb' (by simp)
    | none =>
      rw [hs'] at hb'
      simp only [Option.map_some', Option.mem_def, Option.some.injEq] at hb'
      rw [hb, hb']

theorem translate_by_segments_eq (client : PyStr → PyStr → TResult) (d : ℚ) (mc : ℕ)
    (store₀ : ℕ → Option PyStr) (segs : List Segment) (hseg : segs ≠ [])
    (hcds : chunkDataOf d mc store₀ segs ≠ []) :
    translate_by_segments client d mc store₀ segs =
      (match (runSt client d mc store₀ segs).err with
       | some e =>
         (.fail e, (runSt client d mc store₀ segs).store, (runSt client d mc store₀ segs).calls)
       | none =>
         (.ok (remove_duplicate_lines (joinResults (chunkTextsOf d mc segs).length
            (runSt client d mc store₀ segs).results)),
          (runSt client d mc store₀ segs).store,
          (runSt client d mc store₀ segs).calls)) := by
  unfold translate_by_segments
  rw [if_neg hseg, if_neg hcds]

theorem filterMap_some_eq_map {α β : Type} (f : α → β) (l : List α) :
    l.filterMap (fun a => some (f a)) = l.map f := by
  induction l with
  | nil => rfl
  | cons a l ih => simp [List.filterMap_cons, ih]

theorem joinResults_congr (total : ℕ) (r r' : ℕ → Option PyStr)
    (h : ∀ i < total, r i = r' i) : joinResults total r = joinResults total r' := by
  unfold joinResults
  congr 1
  apply List.map_congr_left
  intro i hi
  rw [h i (List.mem_range.mp hi)]

theorem chunkDataOf_elem (d : ℚ) (mc : ℕ) (store₀ : ℕ → Option PyStr) (segs : List Segment)
    (cd : ChunkInfo) (hcd : cd ∈ chunkDataOf d mc store₀ segs) :
    cd.text = (chunkTextsOf d mc segs).getD cd.index [] ∧
    cd.ctx = (ctxListOf d mc segs).getD cd.index [] ∧
    cd.index < (chunkTextsOf d mc segs).length ∧ store₀ cd.index = none := by
  obtain ⟨hlt, hnone, hcdeq⟩ := (mem_chunkDataOf d mc store₀ segs cd).mp hcd
  exact ⟨congrArg ChunkInfo.text hcdeq, congrArg ChunkInfo.ctx hcdeq, hlt, hnone⟩

/-- Everything a successful fresh run (empty chunk store) establishes: the
client succeeds on every chunk with canonical output `clientOut`, the result
is the duplicate-repaired join of the canonical outputs, and the final store
holds exactly the canonical outputs. -/
theorem fresh_run_spec (client : PyStr → PyStr → TResult) (d : ℚ) (mc : ℕ)
    (segs : List Segment) (hseg : segs ≠ [])
    (htot : 0 < (chunkTextsOf d mc segs).length)
    (hok : (translate_by_segments client d mc emptyStore segs).1.isOk = true) :
    (∀ i < (chunkTextsOf d mc segs).length,
       client ((chunkTextsOf d mc segs).getD i []) ((ctxListOf d mc segs).getD i []) =
         .ok (clientOut client d mc segs i)) ∧
    (translate_by_segments client d mc emptyStore segs).1 =
      .ok (remove_duplicate_lines (joinResults (chunkTextsOf d mc segs).length
        (fun i => some (clientOut client d mc segs i)))) ∧
    (∀ i t, (translate_by_segments client d mc emptyStore segs).2.1 i = some t →
       i < (chunkTextsOf d mc segs).length ∧ t = clientOut client d mc segs i) := by
  have hcdsF : chunkDataOf d mc emptyStore segs =
      (List.range (chunkTextsOf d mc segs).length).map
        (fun i => (⟨i, (chunkTextsOf d mc segs).getD i [],
          (ctxListOf d mc segs).getD i []⟩ : ChunkInfo)) := by
    show (List.range (chunkTextsOf d mc segs).length).filterMap
        (fun i => some (⟨i, (chunkTextsOf d mc segs).getD i [],
          (ctxListOf d mc segs).getD i []⟩ : ChunkInfo)) = _
    exact filterMap_some_eq_map _ _
  have hmapF : (chunkDataOf d mc emptyStore segs).map (fun c => c.index) =
      List.range (chunkTextsOf d mc segs).length := by
    rw [hcdsF, List.map_map]
    exact List.map_id' _
  have hcdsFne : chunkDataOf d mc emptyStore segs ≠ [] := by
    intro h
    rw [h] at hmapF
    have := congrArg List.length hmapF
    simp at this
    omega
  have hFr := translate_by_segments_eq client d mc emptyStore segs hseg hcdsFne
  have herrF : (runSt client d mc emptyStore segs).err = none := by
    rw [hFr] at hok
    cases herr : (runSt client d mc emptyStore segs).err with
    | some e =>
      rw [herr] at hok
      simp [TResult.isOk] at hok
    | none => rfl
  have hallF : ∀ cd ∈ chunkDataOf d mc emptyStore segs,
      ∃ t, client cd.text cd.ctx = .ok t :=
    (execChunks_err_none client (chunkDataOf d mc emptyStore segs)
      (initSt emptyStore (chunkTextsOf d mc segs).length) rfl).mp herrF
  have houtF : ∀ cd ∈ chunkDataOf d mc emptyStore segs,
      client cd.text cd.ctx = .ok (clientOut client d mc segs cd.index) := by
    intro cd hcd
    obtain ⟨htext, hctx, hlt, -⟩ := chunkDataOf_elem d mc emptyStore segs cd hcd
    obtain ⟨t, ht⟩ := hallF cd hcd
    rw [htext, hctx] at ht ⊢
    unfold clientOut
    rw [ht]
  obtain ⟨hresF, hstoF, hcallsF, -⟩ := execChunks_ok client (clientOut client d mc segs)
    (chunkDataOf d mc emptyStore segs)
    (initSt emptyStore (chunkTextsOf d mc segs).length) houtF
  have hptF : ∀ i < (chunkTextsOf d mc segs).length,
      (runSt client d mc emptyStore segs).results i =
        some (clientOut client d mc segs i) := by
    intro i hi
    have h3 := congrFun hresF i
    rw [hmapF] at h3
    rw [if_pos (List.mem_range.mpr hi)] at h3
    exact h3
  refine ⟨?_, ?_, ?_⟩
  · intro i hi
    have hmem : (⟨i, (chunkTextsOf d mc segs).getD i [], (ctxListOf d mc segs).getD i []⟩ :
        ChunkInfo) ∈ chunkDataOf d mc emptyStore segs := by
      rw [hcdsF]
      exact List.mem_map.mpr ⟨i, List.mem_range.mpr hi, rfl⟩
    exact houtF _ hmem
  · rw [hFr, herrF]
    show TResult.ok (remove_duplicate_lines (joinResults (chunkTextsOf d mc segs).length
      (runSt client d mc emptyStore segs).results)) = _
    rw [joinResults_congr _ _ _ hptF]
  · intro i t hsome
    rw [hFr, herrF] at hsome
    have hsome' : (execChunks client (chunkDataOf d mc emptyStore segs)
        (initSt emptyStore (chunkTextsOf d mc segs).length)).store i = some t := hsome
    have h4 := congrFun hstoF i
    rw [hmapF] at h4
    rw [h4] at hsome'
    by_cases hi : i ∈ List.range (chunkTextsOf d mc segs).length
    · rw [if_pos hi] at hsome'
      injection hsome' with h5
      exact ⟨List.mem_range.mp hi, h5.symm⟩
    · rw [if_neg hi] at hsome'
      simp [initSt, emptyStore] at hsome'

/-- Claim C1, as stated, fails when every chunk index already has an
artifact: the all-complete early return (translator.py:732-739) skips the
duplicate-line repair pass that a fresh run applies, so re-running on the
final store of a completed run can return a different text byte-for-byte.
With `clientDup` both chunks translate to "Dup.": the fresh run repairs the
duplicate to "Dup.", the all-complete re-run returns "Dup.\nDup.". -/
theorem C1_counterexample :
    (translate_by_segments clientDup 60 1500 emptyStore exSegs).1 = .ok "Dup.".data ∧
    (translate_by_segments clientDup 60 1500
        (translate_by_segments clientDup 60 1500 emptyStore exSegs).2.1 exSegs).1 =
      .ok "Dup.\nDup.".data ∧
    ("Dup.".data : PyStr) ≠ "Dup.\nDup.".data :=
  ⟨by decide, by decide, by decide⟩

/-- Claim C1 (amended): resume correctness holds whenever at least one chunk
still lacks an artifact.  If the chunk store agrees with the final store of
a successful fresh run (empty store, same deterministic client) on every
artifact it holds, and some chunk index below the chunk count has no
artifact, then the re-run returns exactly the fresh run's result and invokes
translation only for indices without artifacts. -/
theorem C1_resume_correctness (client : PyStr → PyStr → TResult) (chunkDuration : ℚ)
    (maxChars : ℕ) (store₀ : ℕ → Option PyStr) (segments : List Segment)
    (hsub : ∀ i t, store₀ i = some t →
      (translate_by_segments client chunkDuration maxChars emptyStore segments).2.1 i =
        some t)
    (hok : (translate_by_segments client chunkDuration maxChars emptyStore segments).1.isOk =
      true)
    (hproper : ∃ j, j < (chunkTextsOf chunkDuration maxChars segments).length ∧
      store₀ j = none) :
    (translate_by_segments client chunkDuration maxChars store₀ segments).1 =
      (translate_by_segments client chunkDuration maxChars emptyStore segments).1 ∧
    ∀ i ∈ (translate_by_segments client chunkDuration maxChars store₀ segments).2.2,
      store₀ i = none := by
  obtain ⟨j, hj, hjnone⟩ := hproper
  have htot : 0 < (chunkTextsOf chunkDuration maxChars segments).length :=
    Nat.lt_of_le_of_lt (Nat.zero_le j) hj
  have hseg : segments ≠ [] := by
    intro h
    rw [h] at htot
    have hnil : chunkTextsOf chunkDuration maxChars ([] : List Segment) = [] := rfl
    rw [hnil] at htot
    simp at htot
  obtain ⟨hclientF, hfresh1, hstoreinv⟩ :=
    fresh_run_spec client chunkDuration maxChars segments hseg htot hok
  have hcdsRne : chunkDataOf chunkDuration maxChars store₀ segments ≠ [] :=
    List.ne_nil_of_mem ((mem_chunkDataOf chunkDuration maxChars store₀ segments
      ⟨j, (chunkTextsOf chunkDuration maxChars segments).getD j [],
       (ctxListOf chunkDuration maxChars segments).getD j []⟩).mpr ⟨hj, hjnone, rfl⟩)
  have houtR : ∀ cd ∈ chunkDataOf chunkDuration maxChars store₀ segments,
      client cd.text cd.ctx =
        .ok (clientOut client chunkDuration maxChars segments cd.index) := by
    intro cd hcd
    obtain ⟨htext, hctx, hlt, -⟩ :=
      chunkDataOf_elem chunkDuration maxChars store₀ segments cd hcd
    rw [htext, hctx]
    exact hclientF cd.index hlt
  obtain ⟨hresR, hstoR, hcallsR, herrR0⟩ := execChunks_ok client
    (clientOut client chunkDuration maxChars segments)
    (chunkDataOf chunkDuration maxChars store₀ segments)
    (initSt store₀ (chunkTextsOf chunkDuration maxChars segments).length) houtR
  have herrR : (runSt client chunkDuration maxChars store₀ segments).err = none := herrR0
  have hRr := translate_by_segments_eq client chunkDuration maxChars store₀ segments hseg
    hcdsRne
  have hptR : ∀ i < (chunkTextsOf chunkDuration maxChars segments).length,
      (runSt client chunkDuration maxChars store₀ segments).results i =
        some (clientOut client chunkDuration maxChars segments i) := by
    intro i hi
    have h3 := congrFun hresR i
    by_cases hs : store₀ i = none
    · have hmem : i ∈ (chunkDataOf chunkDuration maxChars store₀ segments).map
          (fun c => c.index) :=
        List.mem_map.mpr ⟨⟨i, (chunkTextsOf chunkDuration maxChars segments).getD i [],
          (ctxListOf chunkDuration maxChars segments).getD i []⟩,
          (mem_chunkDataOf chunkDuration maxChars store₀ segments _).mpr ⟨hi, hs, rfl⟩, rfl⟩
      rw [if_pos hmem] at h3
      exact h3
    · obtain ⟨t, ht⟩ := Option.ne_none_iff_exists'.mp hs
      have hnotmem : i ∉ (chunkDataOf chunkDuration maxChars store₀ segments).map
          (fun c => c.index) := by
        intro hm
        obtain ⟨cd, hcd, hidx⟩ := List.mem_map.mp hm
        have hcdnone :=
          (chunkDataOf_elem chunkDuration maxChars store₀ segments cd hcd).2.2.2
        rw [hidx] at hcdnone
        exact hs hcdnone
      rw [if_neg hnotmem] at h3
      have h5 : (initSt store₀
          (chunkTextsOf chunkDuration maxChars segments).length).results i = store₀ i := by
        show (if i < (chunkTextsOf chunkDuration maxChars segments).length then store₀ i
          else none) = store₀ i
        rw [if_pos hi]
      rw [h5, ht] at h3
      obtain ⟨-, hteq⟩ := hstoreinv i t (hsub i t ht)
      rw [hteq] at h3
      exact h3
  refine ⟨?_, ?_⟩
  · rw [hRr, herrR]
    show TResult.ok (remove_duplicate_lines
      (joinResults (chunkTextsOf chunkDuration maxChars segments).length
        (runSt client chunkDuration maxChars store₀ segments).results)) = _
    rw [joinResults_congr _ _ _ hptR, hfresh1]
  · intro i hi
    have hi' : i ∈ (runSt client chunkDuration maxChars store₀ segments).calls := by
      rw [hRr, herrR] at hi
      exact hi
    have hcallsR' : (runSt client chunkDuration maxChars store₀ segments).calls =
        [] ++ (chunkDataOf chunkDuration maxChars store₀ segments).map (fun c => c.index) :=
      hcallsR
    rw [hcallsR'] at hi'
    simp only [List.nil_append] at hi'
    obtain ⟨cd, hcd, hidx⟩ := List.mem_map.mp hi'
    have hcdnone := (chunkDataOf_elem chunkDuration maxChars store₀ segments cd hcd).2.2.2
    rw [hidx] at hcdnone
    exact hcdnone

/-- Witness for the amended C1: a store holding exactly the fresh run's
artifact for chunk 0 of `exSegs`; the re-run reproduces the fresh result and
translates no index holding an artifact. -/
theorem C1_witness :
    (translate_by_segments clientId 60 1500 storeW exSegs).1 =
      (translate_by_segments clientId 60 1500 emptyStore exSegs).1 ∧
    ∀ i ∈ (translate_by_segments clientId 60 1500 storeW exSegs).2.2, storeW i = none :=
  C1_resume_correctness clientId 60 1500 storeW exSegs
    (fun i t h => by
      by_cases hi : i = 0
      · subst hi
        rw [show storeW 0 = (translate_by_segments clientId 60 1500 emptyStore exSegs).2.1 0
          from rfl] at h
        exact h
      · rw [show storeW i = if i = 0 then (translate_by_segments clientId 60 1500 emptyStore
          exSegs).2.1 0 else none from rfl, if_neg hi] at h
        exact absurd h (by simp))
    (by decide) ⟨1, by decide, by decide⟩

theorem runTask_fold (client : PyStr → PyStr → TResult) :
    ∀ (L : List ChunkInfo) (st0 : OrchSt × List PyStr),
      (L.foldl (runTask client) st0).1.calls =
        st0.1.calls ++ L.map (fun c => c.index) ∧
      (L.foldl (runTask client) st0).2 = st0.2 ++ L.filterMap (failOf client) ∧
      ∀ j, (∀ cd ∈ L, cd.index = j → ∃ e, client cd.text cd.ctx = .fail e) →
        (L.foldl (runTask client) st0).1.store j = st0.1.store j := by
  intro L
  induction L with
  | nil => intro st0; exact ⟨by simp, by simp, fun j _ => rfl⟩
  | cons cd rest ih =>
    intro st0
    cases hc : client cd.text cd.ctx with
    | ok t =>
      have hstep : (cd :: rest).foldl (runTask client) st0 =
          rest.foldl (runTask client)
            ({ st0.1 with
               results := Function.update st0.1.results cd.index (some t)
               store := Function.update st0.1.store cd.index (some t)
               calls := st0.1.calls ++ [cd.index] }, st0.2) := by
        simp [List.foldl_cons, runTask, hc]
      rw [hstep]
      obtain ⟨ih1, ih2, ih3⟩ := ih
        ({ st0.1 with
           results := Function.update st0.1.results cd.index (some t)
           store := Function.update st0.1.store cd.index (some t)
           calls := st0.1.calls ++ [cd.index] }, st0.2)
      refine ⟨?_, ?_, ?_⟩
      · rw [ih1]
        simp
      · rw [ih2]
        simp [List.filterMap_cons, failOf, hc]
      · intro j hj
        have hne : cd.index ≠ j := by
          intro hji
          obtain ⟨e, he⟩ := hj cd (by simp) hji
          rw [hc] at he
          exact absurd he (by simp)
        rw [ih3 j (fun c hcm hci => hj c (by simp [hcm]) hci)]
        simp [Function.update_noteq (Ne.symm hne)]
    | fail e =>
      have hstep : (cd :: rest).foldl (runTask client) st0 =
          rest.foldl (runTask client)
            ({ st0.1 with calls := st0.1.calls ++ [cd.index] }, st0.2 ++ [e]) := by
        simp [List.foldl_cons, runTask, hc]
      rw [hstep]
      obtain ⟨ih1, ih2, ih3⟩ := ih
        ({ st0.1 with calls := st0.1.calls ++ [cd.index] }, st0.2 ++ [e])
      refine ⟨?_, ?_, ?_⟩
      · rw [ih1]
        simp
      · rw [ih2]
        simp [List.filterMap_cons, failOf, hc]
      · intro j hj
        exact ih3 j (fun c hcm hci => hj c (by simp [hcm]) hci)

/-- Claim C2 (amended): the failure path of the worker pool, under every
realizable schedule.  All futures are submitted up front, and workers pull
tasks in submission order, so the chunks that start before the cancellation
takes effect form a prefix of the submission order.  For every such prefix:
translation is invoked exactly for the started chunks (the cancelled suffix
is never run); a chunk that was never started never gets an artifact
written; a failed chunk never gets an artifact written; the collected
errors are exactly those of the failed started chunks; and if some started
chunk failed, there is an error to surface as the single overall failure
result.  The original claim's stronger promise — that no artifact is
written for any chunk after the failing one — does not hold: an
already-started later chunk completes and writes its artifact (see the
counterexample). -/
theorem C2_pool_fail_fast (client : PyStr → PyStr → TResult) (chunkDuration : ℚ)
    (maxChars : ℕ) (store₀ : ℕ → Option PyStr) (segments : List Segment) (started : ℕ) :
    (poolFailRun client chunkDuration maxChars store₀ segments started).1.calls =
      ((chunkDataOf chunkDuration maxChars store₀ segments).take started).map
        (fun c => c.index) ∧
    (poolFailRun client chunkDuration maxChars store₀ segments started).2 =
      ((chunkDataOf chunkDuration maxChars store₀ segments).take started).filterMap
        (failOf client) ∧
    (∀ i, i ∉ ((chunkDataOf chunkDuration maxChars store₀ segments).take started).map
          (fun c => c.index) →
      (poolFailRun client chunkDuration maxChars store₀ segments started).1.store i =
        store₀ i) ∧
    (∀ cd ∈ (chunkDataOf chunkDuration maxChars store₀ segments).take started,
      ∀ e, client cd.text cd.ctx = .fail e →
        (poolFailRun client chunkDuration maxChars store₀ segments started).1.store
          cd.index = store₀ cd.index) ∧
    ((∃ cd ∈ (chunkDataOf chunkDuration maxChars store₀ segments).take started,
        ∃ e, client cd.text cd.ctx = .fail e) →
      (poolFailRun client chunkDuration maxChars store₀ segments started).2 ≠ []) := by
  obtain ⟨h1, h2, h3⟩ := runTask_fold client
    ((chunkDataOf chunkDuration maxChars store₀ segments).take started)
    (initSt store₀ (chunkTextsOf chunkDuration maxChars segments).length, [])
  have h1' : (poolFailRun client chunkDuration maxChars store₀ segments started).1.calls =
      ((chunkDataOf chunkDuration maxChars store₀ segments).take started).map
        (fun c => c.index) := h1
  have h2' : (poolFailRun client chunkDuration maxChars store₀ segments started).2 =
      ((chunkDataOf chunkDuration maxChars store₀ segments).take started).filterMap
        (failOf client) := h2
  refine ⟨h1', h2', ?_, ?_, ?_⟩
  · intro i hi
    exact h3 i (fun cd hcm hci => absurd (List.mem_map.mpr ⟨cd, hcm, hci⟩) hi)
  · intro cd hcd e he
    have hnd : (((chunkDataOf chunkDuration maxChars store₀ segments).take started).map
        (fun c => c.index)).Nodup := by
      rw [List.map_take]
      exact (List.take_sublist _ _).nodup
        (chunkDataOf_index_nodup chunkDuration maxChars store₀ segments)
    exact h3 cd.index (fun c hcm hci => by
      rw [List.inj_on_of_nodup_map hnd hcm hcd hci]
      exact ⟨e, he⟩)
  · rintro ⟨cd, hcd, e, he⟩
    rw [h2']
    have hmem : e ∈ ((chunkDataOf chunkDuration maxChars store₀ segments).take
        started).filterMap (failOf client) :=
      List.mem_filterMap.mpr ⟨cd, hcd, by simp [failOf, he]⟩
    exact List.ne_nil_of_mem hmem

/-- Counterexample for C2 as stated: a chunk submitted after the failing one
can still get its artifact written.  All futures are submitted before any
failure is detected (translator.py:768-771); with the default
`max_parallel = 3`, chunk 1 of `exSegs` starts while chunk 0 is still
running, `cancel()` (translator.py:782-784) cannot stop an already-started
future, and on success the worker itself writes the artifact
(translator.py:760-763).  In the schedule where both chunks started (prefix
length 2, realizable since `max_parallel = 3 ≥ 2`), chunk 0 fails with
"boom" — the single surfaced error — yet chunk 1's artifact is written to a
store slot that was empty before the run. -/
theorem C2_counterexample :
    (poolFailRun clientFail 60 1500 emptyStore exSegs 2).2 = ["boom".data] ∧
    (poolFailRun clientFail 60 1500 emptyStore exSegs 2).1.store 1 = some "Beta.".data ∧
    emptyStore 1 = none :=
  ⟨by decide, by decide, rfl⟩

/-- Witness for C2 at the concrete failing run: index 5 belongs to no
started chunk, so its store slot is untouched; chunk 0 failed, so its store
slot is untouched; and the collected errors are nonempty, so a failure is
surfaced. -/
theorem C2_pool_witness :
    (5 ∉ ((chunkDataOf 60 1500 emptyStore exSegs).take 2).map (fun c => c.index) ∧
     (poolFailRun clientFail 60 1500 emptyStore exSegs 2).1.store 5 = emptyStore 5) ∧
    ((⟨0, "Alpha.".data, []⟩ : ChunkInfo) ∈ (chunkDataOf 60 1500 emptyStore exSegs).take 2 ∧
     clientFail "Alpha.".data [] = .fail "boom".data ∧
     (poolFailRun clientFail 60 1500 emptyStore exSegs 2).1.store 0 = emptyStore 0) ∧
    (poolFailRun clientFail 60 1500 emptyStore exSegs 2).2 ≠ [] := by
  obtain ⟨-, -, h3, h4, h5⟩ := C2_pool_fail_fast clientFail 60 1500 emptyStore exSegs 2
  exact ⟨⟨by decide, h3 5 (by decide)⟩,
         ⟨by decide, by decide,
          h4 ⟨0, "Alpha.".data, []⟩ (by decide) "boom".data (by decide)⟩,
         h5 ⟨⟨0, "Alpha.".data, []⟩, by decide, "boom".data, by decide⟩⟩

/-- Witness for C5: with the running chunk two minutes old, a new chunk is
started and the incoming segment opens it. -/
theorem C5_witness :
    (splitStep 60 1500 2000 stW segW).chunks = stW.chunks ++ [stW.cur] ∧
    (splitStep 60 1500 2000 stW segW).cur = [segW] :=
  (C5_split_condition 60 1500 2000 stW segW (by decide)
    (fun s0 hs0 => by
      simp [stW] at hs0
      rw [← hs0]
      decide)).2.1 (by decide)

/-! ### Preprocessor lemmas (C7) -/

theorem dropWhile_idem (p : Char → Bool) : ∀ l : PyStr,
    (l.dropWhile p).dropWhile p = l.dropWhile p := by
  intro l
  induction l with
  | nil => rfl
  | cons c cs ih =>
    cases hc : p c
    · simp [List.dropWhile_cons, hc]
    · simp [List.dropWhile_cons, hc, ih]

theorem dropWhile_eq_self_of_head (p : Char → Bool) (l : PyStr)
    (h : ∀ c ∈ l.head?, p c = false) : l.dropWhile p = l := by
  cases l with
  | nil => rfl
  | cons c cs =>
    rw [List.dropWhile_cons, if_neg]
    simp [h c rfl]

theorem suffix_length_le {l t : PyStr} (h : l <:+ t) : l.length ≤ t.length := by
  obtain ⟨u, hu⟩ := h
  have := congrArg List.length hu
  simp at this
  omega

theorem suffix_eq_of_length {l t : PyStr} (h : l <:+ t) (hl : l.length = t.length) :
    l = t := by
  obtain ⟨u, hu⟩ := h
  have hlen := congrArg List.length hu
  simp at hlen
  have hu0 : u = [] := List.length_eq_zero.mp (by omega)
  rw [hu0] at hu
  simpa using hu

theorem lstrip_suffix (l : PyStr) : lstrip l <:+ l :=
  ⟨l.takeWhile pyWs, List.takeWhile_append_dropWhile pyWs l⟩

theorem rstrip_prefix (l : PyStr) : rstrip l <+: l := by
  refine ⟨(l.reverse.takeWhile pyWs).reverse, ?_⟩
  unfold rstrip
  rw [← List.reverse_append, List.takeWhile_append_dropWhile, List.reverse_reverse]

theorem prefix_length_le {l t : PyStr} (h : l <+: t) : l.length ≤ t.length := by
  obtain ⟨u, hu⟩ := h
  have := congrArg List.length hu
  simp at this
  omega

theorem head_not_ws_of_lstrip_eq (l : PyStr) (h : lstrip l = l) :
    ∀ c ∈ l.head?, pyWs c = false := by
  intro c hc
  cases l with
  | nil => cases hc
  | cons c0 cs =>
    have hc0 : c0 = c := by simpa using hc
    cases hw : pyWs c0
    · rw [← hc0]; exact hw
    · unfold lstrip at h
      rw [List.dropWhile_cons, if_pos (by rw [hw])] at h
      have hlen := congrArg List.length h
      have hle : (cs.dropWhile pyWs).length ≤ cs.length :=
        suffix_length_le ⟨cs.takeWhile pyWs, List.takeWhile_append_dropWhile pyWs cs⟩
      simp at hlen
      omega

theorem rstrip_to_reverse (l : PyStr) (h : rstrip l = l) :
    lstrip l.reverse = l.reverse := by
  have h2 := congrArg List.reverse h
  unfold rstrip at h2
  rw [List.reverse_reverse] at h2
  exact h2

theorem lstrip_lstrip (l : PyStr) : lstrip (lstrip l) = lstrip l :=
  dropWhile_idem pyWs l

theorem rstrip_idem (l : PyStr) : rstrip (rstrip l) = rstrip l := by
  show rstrip (rstrip l) = rstrip l
  unfold rstrip
  rw [List.reverse_reverse, dropWhile_idem]

theorem lstrip_of_rstrip (y : PyStr) (h : lstrip y = y) :
    lstrip (rstrip y) = rstrip y := by
  apply dropWhile_eq_self_of_head
  intro c hc
  have hne : rstrip y ≠ [] := by
    intro h0
    rw [h0] at hc
    cases hc
  have hh : y.head? = (rstrip y).head? := by
    obtain ⟨t, ht⟩ := rstrip_prefix y
    conv_lhs => rw [← ht]
    rw [List.head?_append_of_ne_nil (rstrip y) hne]
  exact head_not_ws_of_lstrip_eq y h c (by rw [hh]; exact hc)

theorem strip_idem (x : PyStr) : strip (strip x) = strip x := by
  show rstrip (lstrip (rstrip (lstrip x))) = rstrip (lstrip x)
  rw [lstrip_of_rstrip (lstrip x) (lstrip_lstrip x), rstrip_idem]

theorem strip_parts (a : PyStr) (h : strip a = a) : lstrip a = a ∧ rstrip a = a := by
  have h1 : lstrip a <:+ a := lstrip_suffix a
  have h2 : rstrip (lstrip a) <+: lstrip a := rstrip_prefix (lstrip a)
  have hl1 := suffix_length_le h1
  have hl2 := prefix_length_le h2
  have hlen : (strip a).length = a.length := by rw [h]
  have hlen2 : (rstrip (lstrip a)).length = a.length := hlen
  have hls : lstrip a = a := suffix_eq_of_length h1 (by omega)
  refine ⟨hls, ?_⟩
  show rstrip a = a
  calc rstrip a = rstrip (lstrip a) := by rw [hls]
  _ = strip a := rfl
  _ = a := h

theorem lstrip_append (x y : PyStr) (hx : lstrip x = x) (hx' : x ≠ []) :
    lstrip (x ++ y) = x ++ y := by
  apply dropWhile_eq_self_of_head
  intro c hc
  rw [List.head?_append_of_ne_nil x hx'] at hc
  exact head_not_ws_of_lstrip_eq x hx c hc

theorem rstrip_append (x y : PyStr) (hy : rstrip y = y) (hy' : y ≠ []) :
    rstrip (x ++ y) = x ++ y := by
  show ((x ++ y).reverse.dropWhile pyWs).reverse = x ++ y
  rw [List.reverse_append]
  rw [dropWhile_eq_self_of_head pyWs (y.reverse ++ x.reverse) ?_]
  · rw [← List.reverse_append, List.reverse_reverse]
  · intro c hc
    have hyr : y.reverse ≠ [] := by simpa using hy'
    rw [List.head?_append_of_ne_nil y.reverse hyr] at hc
    exact head_not_ws_of_lstrip_eq y.reverse (rstrip_to_reverse y hy) c hc

theorem strip_append_space (a b : PyStr) (ha : strip a = a) (ha' : a ≠ [])
    (hb : strip b = b) (hb' : b ≠ []) : strip (a ++ ' ' :: b) = a ++ ' ' :: b := by
  obtain ⟨hla, -⟩ := strip_parts a ha
  obtain ⟨-, hrb⟩ := strip_parts b hb
  show rstrip (lstrip (a ++ ' ' :: b)) = a ++ ' ' :: b
  rw [lstrip_append a (' ' :: b) hla ha']
  have hsplit : a ++ ' ' :: b = (a ++ [' ']) ++ b := by simp
  rw [hsplit, rstrip_append (a ++ [' ']) b hrb hb']

theorem pyIn_of_isPrefixOf (p t : PyStr) (h : p.isPrefixOf t = true) :
    pyIn p t = true := by
  cases t with
  | nil =>
    cases p with
    | nil => rfl
    | cons c cs => simp [List.isPrefixOf] at h
  | cons c cs => simp [pyIn, h]

theorem segment_eta (s : Segment) : ({ s with text := s.text } : Segment) = s := rfl

theorem dedupSegs_id : ∀ (l : List Segment) (prev : PyStr),
    (∀ s ∈ l, strip s.text = s.text ∧ s.text ≠ []) →
    (∀ s0 ∈ l.head?, prev ≠ [] → pyIn prev s0.text = false) →
    List.Chain' (fun a b => pyIn a.text b.text = false) l →
    dedupSegs prev l = l := by
  intro l
  induction l with
  | nil => intro prev _ _ _; rfl
  | cons s rest ih =>
    intro prev htr hhead hchain
    obtain ⟨hst, hsne⟩ := htr s (by simp)
    have hkeep : dedupSegs prev (s :: rest) =
        { s with text := s.text } :: dedupSegs s.text rest := by
      by_cases hprev : prev = []
      · simp [dedupSegs, hsne, hst, hprev]
      · have hin : pyIn prev s.text = false := hhead s rfl hprev
        have hpf : prev.isPrefixOf s.text = false := by
          cases hb : prev.isPrefixOf s.text
          · rfl
          · rw [pyIn_of_isPrefixOf prev s.text hb] at hin
            exact Bool.noConfusion hin
        simp [dedupSegs, hsne, hst, hprev, hin, hpf]
    rw [hkeep, segment_eta]
    obtain ⟨hh, hch⟩ := List.chain'_cons'.mp hchain
    rw [ih s.text (fun x hx => htr x (by simp [hx])) (fun s0 hs0 _ => hh s0 hs0) hch]

theorem dedupSegs_out : ∀ (l : List Segment) (prev : PyStr) (s : Segment),
    s ∈ dedupSegs prev l → strip s.text = s.text ∧ s.text ≠ [] := by
  intro l
  induction l with
  | nil => intro prev s hs; cases hs
  | cons seg rest ih =>
    intro prev s hs
    unfold dedupSegs at hs
    by_cases h1 : strip seg.text = []
    · rw [if_pos h1] at hs
      exact ih prev s hs
    · rw [if_neg h1] at hs
      by_cases h2 : prev ≠ [] ∧ prev.isPrefixOf (strip seg.text)
      · rw [if_pos h2] at hs
        by_cases h3 : strip seg.text = prev
        · rw [if_pos h3] at hs
          exact ih prev s hs
        · rw [if_neg h3] at hs
          by_cases h4 : strip ((strip seg.text).drop prev.length) = []
          · rw [if_pos h4] at hs
            exact ih prev s hs
          · rw [if_neg h4] at hs
            by_cases h5 : prev ≠ [] ∧ pyIn prev (strip ((strip seg.text).drop prev.length))
            · rw [if_pos h5] at hs
              by_cases h6 : strip (replaceFirst (strip ((strip seg.text).drop prev.length))
                  prev) = []
              · rw [if_pos h6] at hs
                exact ih prev s hs
              · rw [if_neg h6] at hs
                rcases List.mem_cons.mp hs with hh | hh
                · subst hh
                  exact ⟨strip_idem _, h6⟩
                · exact ih _ s hh
            · rw [if_neg h5] at hs
              rcases List.mem_cons.mp hs with hh | hh
              · subst hh
                exact ⟨strip_idem _, h4⟩
              · exact ih _ s hh
      · rw [if_neg h2] at hs
        by_cases h7 : prev ≠ [] ∧ pyIn prev (strip seg.text)
        · rw [if_pos h7] at hs
          by_cases h8 : strip (replaceFirst (strip seg.text) prev) = []
          · rw [if_pos h8] at hs
            exact ih prev s hs
          · rw [if_neg h8] at hs
            rcases List.mem_cons.mp hs with hh | hh
            · subst hh
              exact ⟨strip_idem _, h8⟩
            · exact ih _ s hh
        · rw [if_neg h7] at hs
          rcases List.mem_cons.mp hs with hh | hh
          · subst hh
            exact ⟨strip_idem _, h1⟩
          · exact ih _ s hh

theorem mergeSegs_id : ∀ l : List Segment,
    (∀ s ∈ l, s.text ≠ []) →
    (∀ s ∈ l.dropLast, is_sentence_end s.text = true ∨ s.text.length > 200) →
    mergeSegs ⟨[], [], []⟩ l = l := by
  intro l
  induction l with
  | nil => intro _ _; rfl
  | cons s rest ih =>
    intro hne hflush
    have hs := hne s (by simp)
    have hbuf : mergeBuf ⟨[], [], []⟩ s = s := by
      unfold mergeBuf
      rw [if_pos rfl]
    cases rest with
    | nil =>
      by_cases hf : is_sentence_end (mergeBuf ⟨[], [], []⟩ s).text = true ∨
          (mergeBuf ⟨[], [], []⟩ s).text.length > 200
      · unfold mergeSegs
        rw [if_pos hf, hbuf]
        rfl
      · unfold mergeSegs
        rw [if_neg hf, hbuf]
        unfold mergeSegs
        rw [if_neg hs]
    | cons s2 rest2 =>
      have hf : is_sentence_end s.text = true ∨ s.text.length > 200 := by
        apply hflush s
        rw [List.dropLast_cons₂]
        exact List.mem_cons_self _ _
      unfold mergeSegs
      rw [hbuf, if_pos hf]
      rw [ih (fun x hx => hne x (by simp [hx])) ?_]
      intro x hx
      apply hflush x
      rw [List.dropLast_cons₂]
      exact List.mem_cons_of_mem _ hx

theorem mergeSegs_out : ∀ (l : List Segment) (buf : Segment),
    (∀ s ∈ l, strip s.text = s.text ∧ s.text ≠ []) →
    strip buf.text = buf.text →
    ∀ s ∈ mergeSegs buf l, strip s.text = s.text ∧ s.text ≠ [] := by
  intro l
  induction l with
  | nil =>
    intro buf _ hbuf s hs
    unfold mergeSegs at hs
    by_cases hb : buf.text = []
    · rw [if_pos hb] at hs
      cases hs
    · rw [if_neg hb] at hs
      rcases List.mem_cons.mp hs with hh | hh
      · subst hh
        exact ⟨hbuf, hb⟩
      · cases hh
  | cons seg rest ih =>
    intro buf hl hbuf s hs
    obtain ⟨hsegt, hsegne⟩ := hl seg (by simp)
    have hbuf' : strip (mergeBuf buf seg).text = (mergeBuf buf seg).text ∧
        (mergeBuf buf seg).text ≠ [] := by
      unfold mergeBuf
      by_cases hb : buf.text = []
      · rw [if_pos hb]
        exact ⟨hsegt, hsegne⟩
      · rw [if_neg hb]
        exact ⟨strip_append_space buf.text seg.text hbuf hb hsegt hsegne,
          by simp⟩
    unfold mergeSegs at hs
    by_cases hf : is_sentence_end (mergeBuf buf seg).text = true ∨
        (mergeBuf buf seg).text.length > 200
    · rw [if_pos hf] at hs
      rcases List.mem_cons.mp hs with hh | hh
      · subst hh
        exact hbuf'
      · exact ih ⟨[], [], []⟩ (fun x hx => hl x (by simp [hx])) rfl s hh
    · rw [if_neg hf] at hs
      exact ih (mergeBuf buf seg) (fun x hx => hl x (by simp [hx])) hbuf'.1 s hs

theorem mergeSegs_flush : ∀ (l : List Segment) (buf : Segment),
    ∀ s ∈ (mergeSegs buf l).dropLast,
      is_sentence_end s.text = true ∨ s.text.length > 200 := by
  intro l
  induction l with
  | nil =>
    intro buf s hs
    unfold mergeSegs at hs
    by_cases hb : buf.text = []
    · rw [if_pos hb] at hs
      cases hs
    · rw [if_neg hb] at hs
      simp at hs
  | cons seg rest ih =>
    intro buf s hs
    unfold mergeSegs at hs
    by_cases hf : is_sentence_end (mergeBuf buf seg).text = true ∨
        (mergeBuf buf seg).text.length > 200
    · rw [if_pos hf] at hs
      cases hM : mergeSegs ⟨[], [], []⟩ rest with
      | nil =>
        rw [hM] at hs
        simp at hs
      | cons m ms =>
        rw [hM, List.dropLast_cons₂] at hs
        rcases List.mem_cons.mp hs with hh | hh
        · subst hh
          exact hf
        · exact ih ⟨[], [], []⟩ s (by rw [hM]; exact hh)
    · rw [if_neg hf] at hs
      exact ih (mergeBuf buf seg) s hs

/-- Claim C7, as stated, fails: the Preprocessor is not idempotent.  On
`exC7Segs` the first pass strips the overlapping prefix of the middle
segment, producing texts ["q.", "a.", "a."]; a second pass then drops the
now-adjacent duplicate, yielding ["q.", "a."]. -/
theorem C7_counterexample :
    (preprocess_segments exC7Segs).map Segment.text =
      ["q.".data, "a.".data, "a.".data] ∧
    (preprocess_segments (preprocess_segments exC7Segs)).map Segment.text =
      ["q.".data, "a.".data] ∧
    preprocess_segments (preprocess_segments exC7Segs) ≠ preprocess_segments exC7Segs :=
  ⟨by decide, by decide, by decide⟩

/-- Claim C7 (amended): the Preprocessor is idempotent on every input whose
first-pass output has no adjacent overlapping texts (no earlier text being a
substring of the following one); idempotence fails in general
(`C7_counterexample`).  Every output text is stripped and non-empty, and
every non-final output text ends a sentence or exceeds 200 characters, so
under the no-overlap condition the second pass's dedup and merge are both
the identity. -/
theorem C7_conditional_idempotence (segments : List Segment)
    (hchain : List.Chain' (fun a b => pyIn a.text b.text = false)
      (preprocess_segments segments)) :
    preprocess_segments (preprocess_segments segments) = preprocess_segments segments := by
  set l := preprocess_segments segments with hl
  have htr : ∀ s ∈ l, strip s.text = s.text ∧ s.text ≠ [] := by
    rw [hl]
    unfold preprocess_segments
    by_cases hseg : segments = []
    · rw [if_pos hseg]
      intro s hs
      cases hs
    · rw [if_neg hseg]
      exact mergeSegs_out (dedupSegs [] segments) ⟨[], [], []⟩
        (fun x hx => dedupSegs_out segments [] x hx) rfl
  have hflush : ∀ s ∈ l.dropLast, is_sentence_end s.text = true ∨ s.text.length > 200 := by
    rw [hl]
    unfold preprocess_segments
    by_cases hseg : segments = []
    · rw [if_pos hseg]
      intro s hs
      cases hs
    · rw [if_neg hseg]
      exact mergeSegs_flush (dedupSegs [] segments) ⟨[], [], []⟩
  show preprocess_segments l = l
  unfold preprocess_segments
  by_cases hlnil : l = []
  · rw [if_pos hlnil, hlnil]
  · rw [if_neg hlnil]
    rw [dedupSegs_id l [] htr (fun s0 _ h => absurd rfl h) hchain]
    exact mergeSegs_id l (fun s hs => (htr s hs).2) hflush

/-- Witness for the amended C7: two non-overlapping sentence-final segments;
the Preprocessor's output satisfies the no-overlap condition and a second
pass leaves it unchanged. -/
theorem C7_witness :
    List.Chain' (fun a b => pyIn a.text b.text = false) (preprocess_segments exC7W) ∧
    preprocess_segments (preprocess_segments exC7W) = preprocess_segments exC7W := by
  have hpre : preprocess_segments exC7W =
      [⟨"00:00:00.000".data, "00:00:01.000".data, "Hi.".data⟩,
       ⟨"00:00:01.000".data, "00:00:02.000".data, "Bye.".data⟩] := by decide
  have hchain : List.Chain' (fun a b => pyIn a.text b.text = false)
      (preprocess_segments exC7W) := by
    rw [hpre]
    exact List.chain'_cons.mpr ⟨by decide, List.chain'_singleton _⟩
  exact ⟨hchain, C7_conditional_idempotence exC7W hchain⟩


end Dubbing
